import Mathlib

/-!
# PS/2 keyboard receiver (library/ps2/ps2.c): shallow embedding

Machine integers are natural numbers; every C operation that can leave the range of
its type is followed by an explicit reduction (`% 256` for `uint8_t`, `% 65536` for
`uint16_t`).  The file-scope variables of `ps2.c` and the two `static` locals of
`ps2_get_char` form one record that each operation takes and returns.
-/

namespace PS2

/-- Source: `#define RB_SIZE 16` -/
abbrev RB_SIZE : Nat := 16

/-- Source: `#define FRAME_TIMEOUT_US 2000` -/
abbrev FRAME_TIMEOUT_US : Nat := 2000

/-- Source: `typedef enum { RX_IDLE, RX_DATA, RX_PARITY, RX_STOP } rx_state_t;` -/
inductive rx_state_t where
  | RX_IDLE
  | RX_DATA
  | RX_PARITY
  | RX_STOP
  deriving DecidableEq

open rx_state_t

/-- The mutable variables of `ps2.c`: the ring buffer `rb` (a map from index to byte),
its indices, the receiver registers, the time stamp of the last edge and the two
`static` flags of `ps2_get_char`. -/
structure State where
  rb : Nat → Nat
  rhead : Nat
  rtail : Nat
  rx_state : rx_state_t
  rx_byte : Nat
  rx_bit_idx : Nat
  rx_parity : Nat
  last_edge_us : Nat
  is_extended : Nat
  is_break : Nat

/-- Source: `static inline uint16_t now_us(void){ return TCNT1; }`; the register value is
an input, converted to `uint16_t`. -/
def now_us (TCNT1 : Nat) : Nat := TCNT1 % 65536

/-- Source `rb_push`: `nh = (rhead + 1) & (RB_SIZE - 1); if(nh != rtail){ rb[rhead] = b; rhead = nh; }` -/
def rb_push (s : State) (b : Nat) : State :=
  let nh := (s.rhead + 1) &&& (RB_SIZE - 1)
  if nh ≠ s.rtail then { s with rb := Function.update s.rb s.rhead b, rhead := nh } else s

/-- Source `rb_count`: `(rhead - rtail) & (RB_SIZE - 1)`.  The subtraction is done in `int`, and
masking a two's-complement `int` with 15 is reduction modulo 16. -/
def rb_count (s : State) : Nat :=
  Int.toNat (((s.rhead : Int) - (s.rtail : Int)) % 16)

/-- Source `ps2_available`: `rb_count() != 0` -/
def ps2_available (s : State) : Bool := rb_count s != 0

/-- Source `ps2_read`: `b = rb[rtail]; rtail = (rtail+1) & (RB_SIZE-1); return b;` -/
def ps2_read (s : State) : Nat × State :=
  let b := s.rb s.rtail
  (b, { s with rtail := (s.rtail + 1) &&& (RB_SIZE - 1) })

/-- Source `rx_reset`: back to `RX_IDLE`, bit index 0, byte 0, parity 1. -/
def rx_reset (s : State) : State :=
  { s with rx_state := RX_IDLE, rx_bit_idx := 0, rx_byte := 0, rx_parity := 1 }

/-- Source `ISR(INT4_vect)`.  Inputs: the value of `TCNT1` read by `now_us()` and the level of the
data line, `dat` being true when `PS2_DAT_PINR & PS2_DAT_MASK` is non-zero. -/
def INT4_vect (s : State) (TCNT1 : Nat) (dat : Bool) : State :=
  let t := now_us TCNT1
  let dt := Int.toNat (((t : Int) - (s.last_edge_us : Int)) % 65536)
  let s := { s with last_edge_us := t }
  let s := if dt > FRAME_TIMEOUT_US then rx_reset s else s
  let bit : Nat := if dat then 1 else 0
  match s.rx_state with
  | RX_IDLE =>
    if bit = 0 then
      { s with rx_state := RX_DATA, rx_bit_idx := 0, rx_byte := 0, rx_parity := 1 }
    else s
  | RX_DATA =>
    let s := if bit ≠ 0 then { s with rx_byte := (s.rx_byte ||| (1 <<< s.rx_bit_idx)) % 256 } else s
    let s := { s with rx_parity := (s.rx_parity ^^^ bit) % 256 }
    let s := { s with rx_bit_idx := (s.rx_bit_idx + 1) % 256 }
    if s.rx_bit_idx ≥ 8 then { s with rx_state := RX_PARITY } else s
  | RX_PARITY =>
    if bit ≠ s.rx_parity then rx_reset s else { s with rx_state := RX_STOP }
  | RX_STOP =>
    let s := if bit = 1 then rb_push s s.rx_byte else s
    rx_reset s

/-- The state parts of `ps2_init`: `last_edge_us = 0; rx_reset(); rhead = rtail = 0;`
(the register writes configure the hardware and touch no variable). -/
def ps2_init (s : State) : State :=
  let s := { s with last_edge_us := 0 }
  let s := rx_reset s
  { s with rhead := 0, rtail := 0 }

/-- Source `uart_print_ps2_scancodes`: the normal table.  The `char` result is given as its
unsigned 8-bit value. -/
def uart_print_ps2_scancodes (input : Nat) : Nat :=
  match input with
  | 0x76 => 27 -- ESC
  | 0x05 => 133 -- F1
  | 0x06 => 134 -- F2
  | 0x04 => 135 -- F3
  | 0x0C => 136 -- F4
  | 0x03 => 137 -- F5
  | 0x0B => 138 -- F6
  | 0x83 => 139 -- F7
  | 0x0A => 140 -- F8
  | 0x01 => 141 -- F9
  | 0x09 => 142 -- F10
  | 0x78 => 143 -- F11
  | 0x07 => 144 -- F12
  | 0x7E => 146 -- Scroll Lock
  | 0x0E => 96 -- character backquote
  | 0x16 => 49 -- character 1
  | 0x1E => 50 -- character 2
  | 0x26 => 51 -- character 3
  | 0x25 => 52 -- character 4
  | 0x2E => 53 -- character 5
  | 0x36 => 54 -- character 6
  | 0x3D => 55 -- character 7
  | 0x3E => 56 -- character 8
  | 0x46 => 57 -- character 9
  | 0x45 => 48 -- character 0
  | 0x4E => 45 -- character -
  | 0x55 => 61 -- character =
  | 0x66 => 8 -- character backspace, Backspace
  | 0x0D => 9 -- character tab, Tab
  | 0x15 => 113 -- character q
  | 0x1D => 119 -- character w
  | 0x24 => 101 -- character e
  | 0x2D => 114 -- character r
  | 0x2C => 116 -- character t
  | 0x35 => 121 -- character y
  | 0x3C => 117 -- character u
  | 0x43 => 105 -- character i
  | 0x44 => 111 -- character o
  | 0x4D => 112 -- character p
  | 0x54 => 91 -- character [
  | 0x5B => 93 -- character ]
  | 0x5D => 92 -- character backslash
  | 0x58 => 145 -- Caps Lock
  | 0x1C => 97 -- character a
  | 0x1B => 115 -- character s
  | 0x23 => 100 -- character d
  | 0x2B => 102 -- character f
  | 0x34 => 103 -- character g
  | 0x33 => 104 -- character h
  | 0x3B => 106 -- character j
  | 0x42 => 107 -- character k
  | 0x4B => 108 -- character l
  | 0x4C => 59 -- character semicolon
  | 0x52 => 39 -- character apostrophe
  | 0x5A => 10 -- character newline, Enter
  | 0x12 => 128 -- Left Shift
  | 0x1A => 122 -- character z
  | 0x22 => 120 -- character x
  | 0x21 => 99 -- character c
  | 0x2A => 118 -- character v
  | 0x32 => 98 -- character b
  | 0x31 => 110 -- character n
  | 0x3A => 109 -- character m
  | 0x41 => 44 -- character ,
  | 0x49 => 46 -- character .
  | 0x4A => 47 -- character /
  | 0x59 => 129 -- Right Shift
  | 0x14 => 130 -- Left Ctrl
  | 0x11 => 132 -- Left Alt
  | 0x29 => 32 -- character  , Spacebar
  | 0x77 => 147 -- Num Lock
  | 0x7C => 42 -- character *, Keypad *
  | 0x7B => 45 -- character -, Keypad -
  | 0x6C => 55 -- character 7, Keypad 7
  | 0x75 => 56 -- character 8, Keypad 8
  | 0x7D => 57 -- character 9, Keypad 9
  | 0x79 => 43 -- character +, Keypad +
  | 0x6B => 52 -- character 4, Keypad 4
  | 0x73 => 53 -- character 5, Keypad 5
  | 0x74 => 54 -- character 6, Keypad 6
  | 0x69 => 49 -- character 1, Keypad 1
  | 0x72 => 50 -- character 2, Keypad 2
  | 0x7A => 51 -- character 3, Keypad 3
  | 0x70 => 48 -- character 0, Keypad 0
  | 0x71 => 46 -- character ., Keypad .
  | _ => 0 -- default: unhandled scancodes

/-- Source `uart_print_ps2_extended`: the table for codes that follow `0xE0`. -/
def uart_print_ps2_extended (input : Nat) : Nat :=
  match input with
  | 0x1F => 131 -- Left Windows
  | 0x11 => 132 -- Right Alt
  | 0x27 => 131 -- Right Windows
  | 0x2F => 150 -- Menus
  | 0x14 => 130 -- Right Ctrl
  | 0x70 => 153 -- Insert
  | 0x6C => 154 -- Home
  | 0x7D => 155 -- Page Up
  | 0x71 => 156 -- Delete
  | 0x69 => 157 -- End
  | 0x7A => 158 -- Page Down
  | 0x75 => 159 -- Up Arrow
  | 0x6B => 160 -- Left Arrow
  | 0x72 => 161 -- Down Arrow
  | 0x74 => 162 -- Right Arrow
  | 0x4A => 47 -- character /, Keypad /
  | 0x5A => 10 -- character newline, Keypad Enter
  | _ => 0 -- default: unhandled scancodes

/-- The `while (ps2_available())` loop of `ps2_get_char`, one iteration per unit of
`fuel`; `none` when the fuel runs out before the loop ends. -/
def ps2_get_char_loop : Nat → State → Option (Nat × State)
  | 0, _ => none
  | fuel + 1, s =>
    if ps2_available s then
      let r := ps2_read s
      let scancode := r.1
      let s := r.2
      if scancode = 0xE0 then
        ps2_get_char_loop fuel { s with is_extended := 1 }
      else if scancode = 0xF0 then
        ps2_get_char_loop fuel { s with is_break := 1 }
      else if s.is_break ≠ 0 then
        ps2_get_char_loop fuel { s with is_break := 0 }
      else
        let character := if s.is_extended ≠ 0 then uart_print_ps2_extended scancode
          else uart_print_ps2_scancodes scancode
        let s := if s.is_extended ≠ 0 then { s with is_extended := 0 } else s
        if character ≠ 0 then some (character, s) else ps2_get_char_loop fuel s
    else some (0, s)

/-- Source `ps2_get_char`: the returned character and the state it leaves.  Every iteration
reads one byte and at most 15 are queued, so 16 iterations are enough
(`ps2_get_char_scan`). -/
def ps2_get_char (s : State) : Option (Nat × State) := ps2_get_char_loop RB_SIZE s

/-! ## The wire: edges and frames -/

/-- One falling clock edge: `gap` is the true time in microseconds since the previous
edge, `dat` the level of the data line at the edge. -/
structure Edge where
  gap : Nat
  dat : Bool

/-- Run the handler once per edge.  `TCNT1` ticks once per microsecond and wraps at 16
bits, so at an edge it reads the value it had at the previous edge plus the gap,
modulo 65536. -/
def feed (s : State) : List Edge → State
  | [] => s
  | e :: es => feed (INT4_vect s ((s.last_edge_us + e.gap) % 65536) e.dat) es

/-- The 8 data bits of `b`, least-significant first. -/
def dataBits (b : Nat) : List Bool := (List.range 8).map (fun i => b.testBit i)

/-- Odd parity: the parity bit is 1 exactly when the data bits hold an even number of
ones, so that data and parity together hold an odd number. -/
def oddParityBit (b : Nat) : Bool := decide ((dataBits b).count true % 2 = 0)

/-- The 11 line levels of the frame of `b`: start 0, data, parity, stop 1. -/
def frameBits (b : Nat) : List Bool := false :: (dataBits b ++ [oddParityBit b, true])

/-- The queued bytes, oldest first: `rb[rtail], rb[rtail+1], ...` (indices modulo 16),
`rb_count()` of them. -/
def contents (s : State) : List Nat :=
  (List.range (rb_count s)).map (fun i => s.rb ((s.rtail + i) % 16))

/-- The value of `rx_parity` after the first `i` data bits of `b`: it starts at 1 and
toggles with every 1 bit. -/
def parityAfter (b i : Nat) : Nat :=
  if ((List.range i).map (fun k => b.testBit k)).count true % 2 = 0 then 1 else 0

/-- Static storage before `ps2_init`: every variable zero (`RX_IDLE` is the enum's 0). -/
def zeroState : State :=
  { rb := fun _ => 0, rhead := 0, rtail := 0, rx_state := RX_IDLE, rx_byte := 0,
    rx_bit_idx := 0, rx_parity := 0, last_edge_us := 0, is_extended := 0, is_break := 0 }

/-- The edges of a list of line levels, every edge `g` microseconds after the one before. -/
def edgesEvery (g : Nat) (bits : List Bool) : List Edge := bits.map (Edge.mk g)

/-- Invert the line level at position `k` of a frame (position 0 is the start bit). -/
def flipAt : Nat → List Bool → List Bool
  | _, [] => []
  | 0, x :: xs => (!x) :: xs
  | k + 1, x :: xs => x :: flipAt k xs

/-- The byte whose data bits, least-significant first, are the given levels. -/
def bitsVal : List Bool → Nat
  | [] => 0
  | d :: ds => (if d then 1 else 0) + 2 * bitsVal ds

/-- A receiver stopped in the middle of a frame: after `ps2_init`, a start bit and the
three data bits 1, 0, 1, 80 us apart. -/
def midFrame : State := feed (ps2_init zeroState) (edgesEvery 80 [false, true, false, true])

/-- The ring's invariant (spec section 3): both indices are in `[0, RB_SIZE)`. -/
def RingOK (s : State) : Prop := s.rhead < RB_SIZE ∧ s.rtail < RB_SIZE

instance (s : State) : Decidable (RingOK s) :=
  inferInstanceAs (Decidable (s.rhead < RB_SIZE ∧ s.rtail < RB_SIZE))

/-! ## The specification's queue

A bounded FIFO list, oldest byte first, written from the words of the specification:
usable capacity `RB_SIZE - 1`, a push into a full queue is dropped, a read returns and
removes the oldest byte, and a byte is available when the list is not empty. -/

/-- Push on the FIFO list: append, unless 15 bytes are queued. -/
def fifo_push (q : List Nat) (b : Nat) : List Nat :=
  if q.length < RB_SIZE - 1 then q ++ [b] else q

/-- Availability on the FIFO list. -/
def fifo_available (q : List Nat) : Bool := !q.isEmpty

/-- Read on the FIFO list: the oldest byte and the rest; nothing to read on the empty list. -/
def fifo_read : List Nat → Option (Nat × List Nat)
  | [] => none
  | x :: xs => some (x, xs)

/-- A ring-buffer operation issued by the producer (`push`) or the consumer (`read`). -/
inductive RingOp where
  | push (b : Nat)
  | read

/-- Run operations on the code.  `ps2_read` is called only when `ps2_available()` is
true (a read at any other time ends the run with `none`); the result is the list of
bytes read and the final state. -/
def runRing (s : State) : List RingOp → Option (List Nat × State)
  | [] => some ([], s)
  | RingOp.push b :: ops => runRing (rb_push s b) ops
  | RingOp.read :: ops =>
    if ps2_available s then
      (runRing (ps2_read s).2 ops).map (fun r => ((ps2_read s).1 :: r.1, r.2))
    else none

/-- Run the same operations on the FIFO list. -/
def runFifo (q : List Nat) : List RingOp → Option (List Nat × List Nat)
  | [] => some ([], q)
  | RingOp.push b :: ops => runFifo (fifo_push q b) ops
  | RingOp.read :: ops =>
    if fifo_available q then
      (fifo_read q).bind (fun x => (runFifo x.2 ops).map (fun r => (x.1 :: r.1, r.2)))
    else none

/-- What one call of `ps2_get_char` does, seen on the queued bytes: the returned
character, the two flags on return and the bytes left in the queue. -/
structure Scan where
  char : Nat
  ext : Nat
  brk : Nat
  rest : List Nat
  deriving DecidableEq

/-- The loop of `ps2_get_char` followed on the list of queued bytes, from the flag values
`ext` (`is_extended`) and `brk` (`is_break`); `ps2_get_char_scan` shows that the code
computes exactly this. -/
def scanList (ext brk : Nat) : List Nat → Scan
  | [] => { char := 0, ext := ext, brk := brk, rest := [] }
  | x :: xs =>
    if x = 0xE0 then scanList 1 brk xs
    else if x = 0xF0 then scanList ext 1 xs
    else if brk ≠ 0 then scanList ext 0 xs
    else
      let character := if ext ≠ 0 then uart_print_ps2_extended x
        else uart_print_ps2_scancodes x
      if character ≠ 0 then { char := character, ext := 0, brk := brk, rest := xs }
      else scanList 0 brk xs

/-- A full ring: 15 pushes after `ps2_init`. -/
def fullRing : State :=
  (List.range 15).foldl (fun s i => rb_push s (i + 1)) (ps2_init zeroState)

/-- The ring after `ps2_init` and the pushes of the given bytes, flags clear. -/
def ringOf (bytes : List Nat) : State := bytes.foldl rb_push (ps2_init zeroState)

/-! ## Words for the result of one call of `ps2_get_char` -/

/-- A byte `y`, met with the flag values `e` (`is_extended`) and `k` (`is_break`), gives
no output when it is a marker byte (`0xE0`, `0xF0`), the code of a released key (`k`
set), or a code that the active table does not map. -/
def passedOver (e k y : Nat) : Prop :=
  y = 0xE0 ∨ y = 0xF0 ∨ k ≠ 0 ∨
    (if e ≠ 0 then uart_print_ps2_extended y else uart_print_ps2_scancodes y) = 0

/-- The flags after the loop body has handled the byte `y` from the flags `e`, `k`. -/
def flagsAfterByte (e k y : Nat) : Nat × Nat :=
  if y = 0xE0 then (1, k)
  else if y = 0xF0 then (e, 1)
  else if k ≠ 0 then (e, 0)
  else (0, k)

/-- The flags after the bytes of a list, handled in order. -/
def flagsAfter (e k : Nat) : List Nat → Nat × Nat
  | [] => (e, k)
  | y :: ys => flagsAfter (flagsAfterByte e k y).1 (flagsAfterByte e k y).2 ys

/-- Every byte of the list gives no output, each met with the flags its predecessors left. -/
def allPassedOver (e k : Nat) : List Nat → Prop
  | [] => True
  | y :: ys => passedOver e k y ∧
      allPassedOver (flagsAfterByte e k y).1 (flagsAfterByte e k y).2 ys

/-! ## The edge handler in two parts, and reachable states -/

/-- The handler's `uint16_t dt = t - last_edge_us;`, a subtraction modulo 2^16. -/
def dt_us (t last : Nat) : Nat := Int.toNat (((t : Int) - (last : Int)) % 65536)

/-- The `switch(rx_state)` statement of `ISR(INT4_vect)`, on the sampled level `dat`;
`INT4_vect_eq` shows that the handler is the timeout check followed by this switch. -/
def rx_switch (s : State) (dat : Bool) : State :=
  let bit : Nat := if dat then 1 else 0
  match s.rx_state with
  | RX_IDLE =>
    if bit = 0 then
      { s with rx_state := RX_DATA, rx_bit_idx := 0, rx_byte := 0, rx_parity := 1 }
    else s
  | RX_DATA =>
    let s := if bit ≠ 0 then { s with rx_byte := (s.rx_byte ||| (1 <<< s.rx_bit_idx)) % 256 } else s
    let s := { s with rx_parity := (s.rx_parity ^^^ bit) % 256 }
    let s := { s with rx_bit_idx := (s.rx_bit_idx + 1) % 256 }
    if s.rx_bit_idx ≥ 8 then { s with rx_state := RX_PARITY } else s
  | RX_PARITY =>
    if bit ≠ s.rx_parity then rx_reset s else { s with rx_state := RX_STOP }
  | RX_STOP =>
    let s := if bit = 1 then rb_push s s.rx_byte else s
    rx_reset s

/-- The states reachable from `ps2_init` (called in any state) by edge events with any
counter value and any line level, by `ps2_read` when `ps2_available()` is true, and by
calls of `ps2_get_char`. -/
inductive Reachable : State → Prop where
  | init (s0 : State) : Reachable (ps2_init s0)
  | edge (s : State) (TCNT1 : Nat) (dat : Bool) :
      Reachable s → Reachable (INT4_vect s TCNT1 dat)
  | read (s : State) : Reachable s → ps2_available s = true → Reachable (ps2_read s).2
  | get_char (s : State) (c : Nat) (s1 : State) :
      Reachable s → ps2_get_char s = some (c, s1) → Reachable s1

/-- A bound on the number of edges, none after a timeout, that the receiver needs to
come back to `RX_IDLE`: stop bit 1, parity and stop 2, and in `RX_DATA` the data edges
still to come plus 2. -/
def idleDistance (s : State) : Nat :=
  match s.rx_state with
  | RX_IDLE => 0
  | RX_STOP => 1
  | RX_PARITY => 2
  | RX_DATA => if (s.rx_bit_idx + 1) % 256 ≥ 8 then 3 else 11 - (s.rx_bit_idx + 1) % 256

/-- The state invariant: indices in `[0, 16)`, occupancy at most 15, bit index at most 8
and at most 7 in `RX_DATA`, parity accumulator 0 or 1. -/
def StateInv (s : State) : Prop :=
  s.rhead < 16 ∧ s.rtail < 16 ∧ rb_count s ≤ 15 ∧ s.rx_bit_idx ≤ 8 ∧
  (s.rx_state = RX_DATA → s.rx_bit_idx ≤ 7) ∧ (s.rx_parity = 0 ∨ s.rx_parity = 1)

/-! ## The case labels of the two tables -/

/-- The `case` labels of the `switch` in `uart_print_ps2_scancodes`, in source order. -/
def normalCases : List Nat :=
  [0x76, 0x05, 0x06, 0x04, 0x0C, 0x03, 0x0B, 0x83, 0x0A, 0x01, 0x09, 0x78, 0x07, 0x7E,
   0x0E, 0x16, 0x1E, 0x26, 0x25, 0x2E, 0x36, 0x3D, 0x3E, 0x46, 0x45, 0x4E, 0x55, 0x66,
   0x0D, 0x15, 0x1D, 0x24, 0x2D, 0x2C, 0x35, 0x3C, 0x43, 0x44, 0x4D, 0x54, 0x5B, 0x5D,
   0x58, 0x1C, 0x1B, 0x23, 0x2B, 0x34, 0x33, 0x3B, 0x42, 0x4B, 0x4C, 0x52, 0x5A, 0x12,
   0x1A, 0x22, 0x21, 0x2A, 0x32, 0x31, 0x3A, 0x41, 0x49, 0x4A, 0x59, 0x14, 0x11, 0x29,
   0x77, 0x7C, 0x7B, 0x6C, 0x75, 0x7D, 0x79, 0x6B, 0x73, 0x74, 0x69, 0x72, 0x7A, 0x70, 0x71]

/-- The `case` labels of the `switch` in `uart_print_ps2_extended`, in source order. -/
def extendedCases : List Nat :=
  [0x1F, 0x11, 0x27, 0x2F, 0x14, 0x70, 0x6C, 0x7D, 0x71, 0x69, 0x7A, 0x75, 0x6B, 0x72,
   0x74, 0x4A, 0x5A]

/-- The number of executions of the loop body in `ps2_get_char`: the loop of
`ps2_get_char_loop` with the same tests and the same state changes, counting one for
every pass through the body; `none` when the fuel runs out. -/
def ps2_get_char_iters : Nat → State → Option Nat
  | 0, _ => none
  | fuel + 1, s =>
    if ps2_available s then
      let r := ps2_read s
      let scancode := r.1
      let s := r.2
      if scancode = 0xE0 then
        (ps2_get_char_iters fuel { s with is_extended := 1 }).map (fun i => i + 1)
      else if scancode = 0xF0 then
        (ps2_get_char_iters fuel { s with is_break := 1 }).map (fun i => i + 1)
      else if s.is_break ≠ 0 then
        (ps2_get_char_iters fuel { s with is_break := 0 }).map (fun i => i + 1)
      else
        let character := if s.is_extended ≠ 0 then uart_print_ps2_extended scancode
          else uart_print_ps2_scancodes scancode
        let s := if s.is_extended ≠ 0 then { s with is_extended := 0 } else s
        if character ≠ 0 then some 1
        else (ps2_get_char_iters fuel s).map (fun i => i + 1)
    else some 0

/-! ## PWM frequency setup (src/main.c) -/

/-- Source: `#define F_CPU 8000000UL` -/
abbrev F_CPU : Nat := 8000000

/-- Source: `struct opt { uint16_t div; uint8_t cs; }` -/
structure opt where
  div : Nat
  cs : Nat
  deriving DecidableEq

/-- The table `opts[]` of `compute_top_and_prescaler`.  The bit numbers `CS10`, `CS11`,
`CS12` come from the AVR register header, which is not part of the repository; they
are parameters.  The `cs` field is a `uint8_t`. -/
def opts (CS10 CS11 CS12 : Nat) : List opt :=
  [ { div := 1, cs := (1 <<< CS10) % 256 },
    { div := 8, cs := (1 <<< CS11) % 256 },
    { div := 64, cs := ((1 <<< CS11) ||| (1 <<< CS10)) % 256 },
    { div := 256, cs := (1 <<< CS12) % 256 },
    { div := 1024, cs := ((1 <<< CS12) ||| (1 <<< CS10)) % 256 } ]

/-- The divisor `(uint32_t)opts[i].div * freq_hz`, a product modulo 2^32. -/
def divisor (div freq_hz : Nat) : Nat := (div * freq_hz) % 4294967296

/-- The return value of `compute_top_and_prescaler` and the values of `*top_out` and
`*cs_bits_out` when it returns. -/
structure TopResult where
  ret : Int
  top_out : Nat
  cs_bits_out : Nat
  deriving DecidableEq

/-- The `for` loop of `compute_top_and_prescaler` over the entries of `opts[]` still to
try; `none` when `F_CPU` is divided by zero, which C leaves undefined. -/
def compute_loop (freq_hz top_out cs_bits_out : Nat) : List opt → Option TopResult
  | [] => some { ret := -1, top_out := top_out, cs_bits_out := cs_bits_out }
  | o :: rest =>
    if divisor o.div freq_hz = 0 then none
    else
      let top_calc := F_CPU / divisor o.div freq_hz
      if top_calc = 0 then compute_loop freq_hz top_out cs_bits_out rest
      else
        let top_calc := top_calc - 1
        if top_calc ≥ 1 ∧ top_calc ≤ 65535 then
          some { ret := 0, top_out := top_calc % 65536, cs_bits_out := o.cs }
        else compute_loop freq_hz top_out cs_bits_out rest

/-- Source `compute_top_and_prescaler`: `freq_hz` is a `uint32_t`; `top_out` and
`cs_bits_out` are the values behind the two pointers at entry. -/
def compute_top_and_prescaler (CS10 CS11 CS12 : Nat) (freq_hz top_out cs_bits_out : Nat) :
    Option TopResult :=
  if freq_hz = 0 then some { ret := -1, top_out := top_out, cs_bits_out := cs_bits_out }
  else compute_loop freq_hz top_out cs_bits_out (opts CS10 CS11 CS12)

/-- The claim's condition in exact integer arithmetic: prescaler `d` is feasible for
`freq_hz` when `1 <= floor(8000000 / (d * freq_hz)) - 1 <= 65535`. -/
def feasible (d freq_hz : Nat) : Prop :=
  1 ≤ (8000000 : Int) / ((d : Int) * (freq_hz : Int)) - 1 ∧
  (8000000 : Int) / ((d : Int) * (freq_hz : Int)) - 1 ≤ 65535

instance (d freq_hz : Nat) : Decidable (feasible d freq_hz) :=
  inferInstanceAs (Decidable (_ ∧ _))

/-- The result the claim describes: 0 with the top value and clock-select bits of the
first feasible entry of the table when `freq_hz` is not 0 and some entry is feasible,
and -1 with both outputs untouched in every other case. -/
def feasibleResult (CS10 CS11 CS12 : Nat) (freq_hz top_out cs_bits_out : Nat) : TopResult :=
  if freq_hz = 0 then { ret := -1, top_out := top_out, cs_bits_out := cs_bits_out }
  else
    match (opts CS10 CS11 CS12).find? (fun o => decide (feasible o.div freq_hz)) with
    | some o =>
      { ret := 0, top_out := Int.toNat ((8000000 : Int) / ((o.div : Int) * (freq_hz : Int)) - 1),
        cs_bits_out := o.cs }
    | none => { ret := -1, top_out := top_out, cs_bits_out := cs_bits_out }

/-! ## The edge handler, one edge at a time -/

theorem dt_of_gap (l g : Nat) :
    Int.toNat ((((now_us ((l + g) % 65536) : Nat) : Int) - (l : Int)) % 65536) = g % 65536 := by
  unfold now_us
  omega

theorem mask15 (x : Nat) : x &&& (RB_SIZE - 1) = x % 16 :=
  Nat.and_pow_two_sub_one_eq_mod x 4

theorem feed_append (s : State) (xs ys : List Edge) :
    feed s (xs ++ ys) = feed (feed s xs) ys := by
  induction xs generalizing s with
  | nil => rfl
  | cons e es ih => simp [feed, ih]

/-- A start bit seen in `RX_IDLE` opens a frame, whether or not the timeout fired. -/
theorem INT4_vect_start (s : State) (T : Nat) (h : s.rx_state = RX_IDLE) :
    INT4_vect s T false =
      { s with last_edge_us := now_us T, rx_state := RX_DATA, rx_bit_idx := 0, rx_byte := 0,
               rx_parity := 1 } := by
  unfold INT4_vect
  by_cases ht : Int.toNat ((((now_us T : Nat) : Int) - (s.last_edge_us : Int)) % 65536) >
      FRAME_TIMEOUT_US
  · simp [ht, rx_reset]
  · simp [ht, h]

/-- A data bit without timeout. -/
theorem INT4_vect_data (s : State) (g : Nat) (d : Bool) (h : s.rx_state = RX_DATA)
    (hg : g ≤ FRAME_TIMEOUT_US) :
    INT4_vect s ((s.last_edge_us + g) % 65536) d =
      { s with last_edge_us := now_us ((s.last_edge_us + g) % 65536),
               rx_byte := if d then (s.rx_byte ||| (1 <<< s.rx_bit_idx)) % 256 else s.rx_byte,
               rx_parity := (s.rx_parity ^^^ (if d then 1 else 0)) % 256,
               rx_bit_idx := (s.rx_bit_idx + 1) % 256,
               rx_state := if (s.rx_bit_idx + 1) % 256 ≥ 8 then RX_PARITY else RX_DATA } := by
  have hdt := dt_of_gap s.last_edge_us g
  have hno : ¬ (g % 65536 > FRAME_TIMEOUT_US) := by
    simp only [FRAME_TIMEOUT_US] at hg ⊢
    omega
  unfold INT4_vect
  simp only [hdt, hno, if_false, h]
  cases d <;> simp <;> split <;> simp_all

/-- The parity bit without timeout: a match moves on to `RX_STOP`, a mismatch resets. -/
theorem INT4_vect_parity (s : State) (g : Nat) (d : Bool) (h : s.rx_state = RX_PARITY)
    (hg : g ≤ FRAME_TIMEOUT_US) :
    INT4_vect s ((s.last_edge_us + g) % 65536) d =
      if (if d then 1 else 0) ≠ s.rx_parity then
        rx_reset { s with last_edge_us := now_us ((s.last_edge_us + g) % 65536) }
      else
        { s with last_edge_us := now_us ((s.last_edge_us + g) % 65536), rx_state := RX_STOP } := by
  have hdt := dt_of_gap s.last_edge_us g
  have hno : ¬ (g % 65536 > FRAME_TIMEOUT_US) := by
    simp only [FRAME_TIMEOUT_US] at hg ⊢
    omega
  unfold INT4_vect
  simp only [hdt, hno, if_false, h]

/-- The stop bit without timeout: a 1 pushes the byte, and the receiver resets either way. -/
theorem INT4_vect_stop (s : State) (g : Nat) (d : Bool) (h : s.rx_state = RX_STOP)
    (hg : g ≤ FRAME_TIMEOUT_US) :
    INT4_vect s ((s.last_edge_us + g) % 65536) d =
      rx_reset (if d then
          rb_push { s with last_edge_us := now_us ((s.last_edge_us + g) % 65536) } s.rx_byte
        else { s with last_edge_us := now_us ((s.last_edge_us + g) % 65536) }) := by
  have hdt := dt_of_gap s.last_edge_us g
  have hno : ¬ (g % 65536 > FRAME_TIMEOUT_US) := by
    simp only [FRAME_TIMEOUT_US] at hg ⊢
    omega
  unfold INT4_vect
  simp only [hdt, hno, if_false, h]
  cases d <;> simp

/-- An edge seen in `RX_IDLE` touches neither the ring buffer nor the flags, and leaves
`RX_IDLE` only for a start bit. -/
theorem INT4_vect_idle (s : State) (T : Nat) (d : Bool) (h : s.rx_state = RX_IDLE) :
    (INT4_vect s T d).rb = s.rb ∧ (INT4_vect s T d).rhead = s.rhead ∧
    (INT4_vect s T d).rtail = s.rtail ∧
    (INT4_vect s T d).rx_state = if d then RX_IDLE else RX_DATA := by
  unfold INT4_vect
  by_cases ht : Int.toNat ((((now_us T : Nat) : Int) - (s.last_edge_us : Int)) % 65536) >
      FRAME_TIMEOUT_US
  · cases d <;> simp [ht, rx_reset]
  · cases d <;> simp [ht, h]

set_option maxRecDepth 100000 in
theorem byte_step : ∀ b, b < 256 → ∀ i, i < 8 →
    (b.testBit i = true → ((b % 2 ^ i) ||| (1 <<< i)) % 256 = b % 2 ^ (i + 1)) ∧
    (b.testBit i = false → b % 2 ^ i = b % 2 ^ (i + 1)) := by decide

set_option maxRecDepth 100000 in
theorem parity_step : ∀ b, b < 256 → ∀ i, i < 8 →
    parityAfter b (i + 1) = (parityAfter b i ^^^ (if b.testBit i then 1 else 0)) % 256 := by
  decide

theorem parityAfter_eight (b : Nat) :
    parityAfter b 8 = if oddParityBit b then 1 else 0 := by
  simp [parityAfter, oddParityBit, dataBits]

/-- The data phase: from a receiver that holds the first `i` bits of `b`, the edges of
the remaining bits, none after a timeout, lead to `RX_PARITY` with all of `b`. -/
theorem feed_data (b : Nat) (hb : b < 256) :
    ∀ (n i : Nat) (ds : List Edge) (s : State), i + n = 8 →
      s.rx_state = (if i ≥ 8 then RX_PARITY else RX_DATA) → s.rx_bit_idx = i →
      s.rx_byte = b % 2 ^ i → s.rx_parity = parityAfter b i →
      ds.map Edge.dat = (List.range' i n).map (fun k => b.testBit k) →
      (∀ e ∈ ds, e.gap ≤ FRAME_TIMEOUT_US) →
      ∃ T, feed s ds = { s with last_edge_us := T, rx_state := RX_PARITY, rx_bit_idx := 8,
                                rx_byte := b, rx_parity := parityAfter b 8 } := by
  intro n
  induction n with
  | zero =>
    intro i ds s hin hst hidx hbyte hpar hds _
    have hi : i = 8 := by omega
    subst hi
    have : ds = [] := by simpa using hds
    subst this
    refine ⟨s.last_edge_us, ?_⟩
    have hb8 : b % 2 ^ 8 = b := Nat.mod_eq_of_lt (by simpa using hb)
    cases s
    simp_all [feed]
  | succ n ih =>
    intro i ds s hin hst hidx hbyte hpar hds hgap
    have hi : i < 8 := by omega
    cases ds with
    | nil => simp [List.range'] at hds
    | cons e es =>
      simp only [List.range', List.map_cons, List.cons.injEq] at hds
      obtain ⟨hd, hes⟩ := hds
      have hst' : s.rx_state = RX_DATA := by simpa [Nat.not_le.mpr hi] using hst
      have hge : e.gap ≤ FRAME_TIMEOUT_US := hgap e (by simp)
      have hstep := INT4_vect_data s e.gap e.dat hst' hge
      have hbs := byte_step b hb i hi
      have hps := parity_step b hb i hi
      obtain ⟨T, hT⟩ := ih (i + 1) es (INT4_vect s ((s.last_edge_us + e.gap) % 65536) e.dat)
        (by omega)
        (by rw [hstep]; simp only [hidx]; have : (i + 1) % 256 = i + 1 := by omega
            simp [this])
        (by rw [hstep]; simp only [hidx]; omega)
        (by rw [hstep]; simp only [hidx, hbyte, hd]
            cases hbit : b.testBit i
            · simpa using hbs.2 hbit
            · simpa using hbs.1 hbit)
        (by rw [hstep]; simp only [hpar, hd, hps])
        hes
        (fun x hx => hgap x (by simp [hx]))
      refine ⟨T, ?_⟩
      simp only [feed]
      rw [hT, hstep]

theorem map_eq_pair {α β : Type} (f : α → β) (l : List α) (a b : β)
    (h : l.map f = [a, b]) : ∃ x y, l = [x, y] ∧ f x = a ∧ f y = b := by
  cases l with
  | nil => simp at h
  | cons x l1 =>
    cases l1 with
    | nil => simp at h
    | cons y l2 =>
      cases l2 with
      | nil =>
        simp only [List.map_cons, List.map_nil, List.cons.injEq, and_true] at h
        exact ⟨x, y, rfl, h.1, h.2⟩
      | cons z l3 => simp at h

/-- A whole frame from `RX_IDLE` without timeout after the start edge: start bit, the
data bits of `b`, any parity level `p` and any stop level `st`.  The byte is pushed
exactly when the parity matches and the stop bit is 1; the receiver ends in `RX_IDLE`
unless a start-like stop level follows a parity error. -/
theorem feed_frame (b : Nat) (hb : b < 256) (p st : Bool) (s : State) (edges : List Edge)
    (hidle : s.rx_state = RX_IDLE)
    (hbits : edges.map Edge.dat = false :: (dataBits b ++ [p, st]))
    (hgap : ∀ e ∈ edges.tail, e.gap ≤ FRAME_TIMEOUT_US) :
    (feed s edges).rb = (if p = oddParityBit b ∧ st = true then rb_push s b else s).rb ∧
    (feed s edges).rhead = (if p = oddParityBit b ∧ st = true then rb_push s b else s).rhead ∧
    (feed s edges).rtail = s.rtail ∧
    (feed s edges).rx_state = (if p = oddParityBit b ∨ st = true then RX_IDLE else RX_DATA) := by
  cases edges with
  | nil => simp at hbits
  | cons e0 rest =>
    simp only [List.map_cons, List.cons.injEq] at hbits
    obtain ⟨h0, hrest⟩ := hbits
    obtain ⟨ds, tl, rfl, hds, htl⟩ := List.map_eq_append_iff.mp hrest
    obtain ⟨ep, es, rfl, hp, hs⟩ := map_eq_pair _ _ _ _ htl
    simp only [List.tail_cons] at hgap
    have hgp : ep.gap ≤ FRAME_TIMEOUT_US := hgap ep (by simp)
    have hgs : es.gap ≤ FRAME_TIMEOUT_US := hgap es (by simp)
    have hstart := INT4_vect_start s ((s.last_edge_us + e0.gap) % 65536) hidle
    simp only [feed, feed_append, h0, hstart]
    obtain ⟨T, hT⟩ := feed_data b hb 8 0 ds
      { s with last_edge_us := now_us ((s.last_edge_us + e0.gap) % 65536), rx_state := RX_DATA,
               rx_bit_idx := 0, rx_byte := 0, rx_parity := 1 }
      rfl (by simp) rfl (by simp [Nat.mod_one]) (by simp [parityAfter])
      (by rw [hds, dataBits, List.range_eq_range'])
      (fun x hx => hgap x (by simp [hx]))
    rw [hT, INT4_vect_parity _ _ _ rfl hgp]
    simp only [hp, hs, parityAfter_eight]
    by_cases hpar : p = oddParityBit b
    · subst hpar
      simp only [ne_eq, not_true_eq_false, if_false, true_and, true_or, if_true]
      rw [INT4_vect_stop _ _ _ rfl hgs]
      cases st <;> simp [rb_push, rx_reset]
      split <;> simp
    · have hne : (if p = true then 1 else 0) ≠ (if oddParityBit b = true then 1 else 0) := by
        cases p <;> cases hq : oddParityBit b <;> simp_all
      simp only [hne, hpar, ne_eq, not_false_eq_true, if_true, false_and, if_false, false_or]
      have key : ∀ (x : State) (Y : Nat), x.rx_state = RX_IDLE → x.rb = s.rb →
          x.rhead = s.rhead → x.rtail = s.rtail →
          (INT4_vect x Y st).rb = s.rb ∧ (INT4_vect x Y st).rhead = s.rhead ∧
          (INT4_vect x Y st).rtail = s.rtail ∧
          (INT4_vect x Y st).rx_state = if st = true then RX_IDLE else RX_DATA := by
        intro x Y hx h1 h2 h3
        obtain ⟨k1, k2, k3, k4⟩ := INT4_vect_idle x Y st hx
        exact ⟨k1.trans h1, k2.trans h2, k3.trans h3, k4⟩
      exact key _ _ rfl rfl rfl rfl

/-- C1. Valid frame decode: from `RX_IDLE` with room in the ring buffer, the 11 edges of
the frame of a byte `b` (start 0, the bits of `b` least-significant first, odd parity,
stop 1), none of the 10 edges after the start edge later than 2000 us after its
predecessor, store `b` at the old head, advance the head by one modulo 16, leave the
tail and every other slot alone, raise the count by one and end in `RX_IDLE`. -/
theorem valid_frame_decode (b : Nat) (hb : b < 256) (s : State) (edges : List Edge)
    (hidle : s.rx_state = RX_IDLE) (hroom : (s.rhead + 1) % 16 ≠ s.rtail)
    (hbits : edges.map Edge.dat = frameBits b)
    (hgap : ∀ e ∈ edges.tail, e.gap ≤ FRAME_TIMEOUT_US) :
    (feed s edges).rb = Function.update s.rb s.rhead b ∧
    (feed s edges).rhead = (s.rhead + 1) % 16 ∧
    (feed s edges).rtail = s.rtail ∧
    (feed s edges).rx_state = RX_IDLE ∧
    (s.rtail < 16 → rb_count (feed s edges) = rb_count s + 1) := by
  obtain ⟨h1, h2, h3, h4⟩ := feed_frame b hb (oddParityBit b) true s edges hidle hbits hgap
  have hne : ¬ ((s.rhead + 1) % 16 = s.rtail) := hroom
  simp only [and_self, if_true, rb_push, ne_eq, mask15, hne, not_false_eq_true, true_or]
    at h1 h2 h4
  refine ⟨h1, h2, h3, h4, ?_⟩
  intro ht
  simp only [rb_count, h2, h3]
  omega

theorem valid_frame_decode_witness :
    (feed (ps2_init zeroState) (edgesEvery 80 (frameBits 0x1C))).rb
        = Function.update (ps2_init zeroState).rb 0 0x1C ∧
    (feed (ps2_init zeroState) (edgesEvery 80 (frameBits 0x1C))).rhead = 1 ∧
    (feed (ps2_init zeroState) (edgesEvery 80 (frameBits 0x1C))).rtail = 0 ∧
    (feed (ps2_init zeroState) (edgesEvery 80 (frameBits 0x1C))).rx_state = RX_IDLE ∧
    (0 < 16 → rb_count (feed (ps2_init zeroState) (edgesEvery 80 (frameBits 0x1C))) = 0 + 1) :=
  valid_frame_decode 0x1C (by decide) (ps2_init zeroState) (edgesEvery 80 (frameBits 0x1C))
    rfl (by decide) (by decide) (by decide)

set_option maxRecDepth 100000 in
set_option maxHeartbeats 4000000 in
theorem flipAt_frame : ∀ b, b < 256 → ∀ k, k < 9 →
    (if k < 8 then b ^^^ (1 <<< k) else b) < 256 ∧
    flipAt (k + 1) (frameBits b) =
      false :: (dataBits (if k < 8 then b ^^^ (1 <<< k) else b) ++
        [if k < 8 then oddParityBit b else !oddParityBit b, true]) ∧
    (if k < 8 then oddParityBit b else !oddParityBit b) ≠
      oddParityBit (if k < 8 then b ^^^ (1 <<< k) else b) := by
  decide

/-- C2. Parity error: the frame of a byte `b` with exactly one of its 8 data bits or its
parity bit inverted (frame positions 1 to 9; start 0 and stop 1 kept), fed from
`RX_IDLE` without timeout after the start edge, leaves the slots, head and tail of the
ring buffer as they were, and the receiver is in `RX_IDLE` after the 11th edge. -/
theorem parity_error_drops (b : Nat) (hb : b < 256) (k : Nat) (hk1 : 1 ≤ k) (hk9 : k ≤ 9)
    (s : State) (edges : List Edge) (hidle : s.rx_state = RX_IDLE)
    (hbits : edges.map Edge.dat = flipAt k (frameBits b))
    (hgap : ∀ e ∈ edges.tail, e.gap ≤ FRAME_TIMEOUT_US) :
    edges.length = 11 ∧
    (feed s edges).rb = s.rb ∧ (feed s edges).rhead = s.rhead ∧
    (feed s edges).rtail = s.rtail ∧ (feed s edges).rx_state = RX_IDLE := by
  obtain ⟨j, rfl⟩ : ∃ j, k = j + 1 := ⟨k - 1, by omega⟩
  obtain ⟨hlt, hfl, hne⟩ := flipAt_frame b hb j (by omega)
  rw [hfl] at hbits
  have hlen : edges.length = 11 := by
    have := congrArg List.length hbits
    simpa [dataBits] using this
  obtain ⟨h1, h2, h3, h4⟩ := feed_frame _ hlt _ true s edges hidle hbits hgap
  simp only [hne, false_and, if_false, or_true, if_true] at h1 h2 h4
  exact ⟨hlen, h1, h2, h3, h4⟩

theorem parity_error_drops_witness :
    (edgesEvery 80 (flipAt 3 (frameBits 0x1C))).length = 11 ∧
    (feed (ps2_init zeroState) (edgesEvery 80 (flipAt 3 (frameBits 0x1C)))).rb
      = (ps2_init zeroState).rb ∧
    (feed (ps2_init zeroState) (edgesEvery 80 (flipAt 3 (frameBits 0x1C)))).rhead = 0 ∧
    (feed (ps2_init zeroState) (edgesEvery 80 (flipAt 3 (frameBits 0x1C)))).rtail = 0 ∧
    (feed (ps2_init zeroState) (edgesEvery 80 (flipAt 3 (frameBits 0x1C)))).rx_state = RX_IDLE :=
  parity_error_drops 0x1C (by decide) 3 (by decide) (by decide) (ps2_init zeroState)
    (edgesEvery 80 (flipAt 3 (frameBits 0x1C))) rfl (by decide) (by decide)

theorem dataBits_bitsVal : ∀ d0 d1 d2 d3 d4 d5 d6 d7 : Bool,
    bitsVal [d0, d1, d2, d3, d4, d5, d6, d7] < 256 ∧
    dataBits (bitsVal [d0, d1, d2, d3, d4, d5, d6, d7]) = [d0, d1, d2, d3, d4, d5, d6, d7] := by
  decide

theorem eight_levels (bits : List Bool) (hlen : bits.length = 8) :
    bitsVal bits < 256 ∧ dataBits (bitsVal bits) = bits := by
  rcases bits with _ | ⟨d0, _ | ⟨d1, _ | ⟨d2, _ | ⟨d3, _ | ⟨d4, _ | ⟨d5, _ | ⟨d6, _ | ⟨d7, _ | ⟨d8, r⟩⟩⟩⟩⟩⟩⟩⟩⟩ <;>
    simp at hlen
  exact dataBits_bitsVal d0 d1 d2 d3 d4 d5 d6 d7

/-- C3. Stop-bit (framing) error: for any 8 data levels and any parity level, a frame
with start bit 0 and stop bit 0, fed from `RX_IDLE` without timeout after the start
edge, enqueues nothing: slots, head and tail of the ring buffer are as before. -/
theorem stop_error_drops (bits : List Bool) (hlen : bits.length = 8) (p : Bool)
    (s : State) (edges : List Edge) (hidle : s.rx_state = RX_IDLE)
    (hbits : edges.map Edge.dat = false :: (bits ++ [p, false]))
    (hgap : ∀ e ∈ edges.tail, e.gap ≤ FRAME_TIMEOUT_US) :
    (feed s edges).rb = s.rb ∧ (feed s edges).rhead = s.rhead ∧
    (feed s edges).rtail = s.rtail := by
  obtain ⟨hlt, hd⟩ := eight_levels bits hlen
  rw [← hd] at hbits
  obtain ⟨h1, h2, h3, _⟩ := feed_frame _ hlt p false s edges hidle hbits hgap
  simp only [Bool.false_eq_true, and_false, if_false] at h1 h2
  exact ⟨h1, h2, h3⟩

theorem stop_error_drops_witness :
    (feed (ps2_init zeroState)
      (edgesEvery 80 (false :: (dataBits 0x1C ++ [oddParityBit 0x1C, false])))).rb
        = (ps2_init zeroState).rb ∧
    (feed (ps2_init zeroState)
      (edgesEvery 80 (false :: (dataBits 0x1C ++ [oddParityBit 0x1C, false])))).rhead = 0 ∧
    (feed (ps2_init zeroState)
      (edgesEvery 80 (false :: (dataBits 0x1C ++ [oddParityBit 0x1C, false])))).rtail = 0 :=
  stop_error_drops (dataBits 0x1C) (by decide) (oddParityBit 0x1C) (ps2_init zeroState)
    (edgesEvery 80 (false :: (dataBits 0x1C ++ [oddParityBit 0x1C, false]))) rfl (by decide)
    (by decide)

/-- The resynchronisation that the handler does provide: when the gap modulo 65536
exceeds the timeout, the edge is handled as from a freshly reset receiver. -/
theorem timeout_resync_mod (s : State) (g : Nat) (d : Bool)
    (hg : g % 65536 > FRAME_TIMEOUT_US) :
    INT4_vect s ((s.last_edge_us + g) % 65536) d =
      { s with last_edge_us := now_us ((s.last_edge_us + g) % 65536),
               rx_state := if d then RX_IDLE else RX_DATA,
               rx_bit_idx := 0, rx_byte := 0, rx_parity := 1 } := by
  have hdt := dt_of_gap s.last_edge_us g
  unfold INT4_vect
  simp only [hdt, hg, if_true]
  cases d <;> simp [rx_reset]

/-- C4 (the code at a failing input). The receiver `midFrame` is in `RX_DATA` with bit
index 3.  An edge 65536 us after the previous one reads the same `TCNT1`, so no timeout
is seen and the start-bit level is taken as the fourth data bit of the old frame
(bit index 4), while a freshly reset receiver would open a new frame (bit index 0). -/
theorem timeout_alias_65536 :
    midFrame.rx_state = RX_DATA ∧ midFrame.rx_bit_idx = 3 ∧
    (65536 : Nat) > FRAME_TIMEOUT_US ∧
    (INT4_vect midFrame ((midFrame.last_edge_us + 65536) % 65536) false).rx_state = RX_DATA ∧
    (INT4_vect midFrame ((midFrame.last_edge_us + 65536) % 65536) false).rx_bit_idx = 4 ∧
    (INT4_vect (rx_reset midFrame) ((midFrame.last_edge_us + 65536) % 65536) false).rx_state
      = RX_DATA ∧
    (INT4_vect (rx_reset midFrame) ((midFrame.last_edge_us + 65536) % 65536) false).rx_bit_idx
      = 0 := by
  decide

/-! ## The ring buffer -/

theorem rb_count_eq (s : State) (h : RingOK s) :
    rb_count s = (s.rhead + 16 - s.rtail) % 16 := by
  obtain ⟨hh, ht⟩ := h
  simp only [RB_SIZE] at hh ht
  unfold rb_count
  omega

theorem contents_length (s : State) : (contents s).length = rb_count s := by
  simp [contents]

theorem RingOK_rb_push (s : State) (b : Nat) (h : RingOK s) : RingOK (rb_push s b) := by
  obtain ⟨hh, ht⟩ := h
  simp only [RB_SIZE] at hh ht
  unfold rb_push
  simp only [mask15]
  split
  · exact ⟨Nat.mod_lt _ (by decide), ht⟩
  · exact ⟨hh, ht⟩

theorem RingOK_ps2_read (s : State) (h : RingOK s) : RingOK (ps2_read s).2 := by
  obtain ⟨hh, ht⟩ := h
  simp only [ps2_read, mask15]
  exact ⟨hh, Nat.mod_lt _ (by decide)⟩

/-- On the queued bytes `rb_push` acts as the FIFO push. -/
theorem contents_rb_push (s : State) (b : Nat) (h : RingOK s) :
    contents (rb_push s b) = fifo_push (contents s) b := by
  have hc := rb_count_eq s h
  have hc' := rb_count_eq (rb_push s b) (RingOK_rb_push s b h)
  obtain ⟨hh, ht⟩ := h
  simp only [RB_SIZE] at hh ht
  unfold fifo_push
  rw [contents_length]
  by_cases hfull : (s.rhead + 1) % 16 = s.rtail
  · have h1 : rb_push s b = s := by
      unfold rb_push
      simp only [mask15, ne_eq, hfull, not_true_eq_false, if_false]
    have h2 : ¬ (rb_count s < RB_SIZE - 1) := by
      simp only [RB_SIZE]
      omega
    rw [h1, if_neg h2]
  · have hpush : rb_push s b =
        { s with rb := Function.update s.rb s.rhead b, rhead := (s.rhead + 1) % 16 } := by
      unfold rb_push
      simp only [mask15, ne_eq, hfull, not_false_eq_true, if_true]
    have h2 : rb_count s < RB_SIZE - 1 := by
      simp only [RB_SIZE]
      omega
    rw [if_pos h2]
    rw [hpush] at hc'
    simp only at hc'
    have hn : rb_count (rb_push s b) = rb_count s + 1 := by
      rw [hpush, hc', hc]
      simp only [RB_SIZE] at h2
      omega
    unfold contents
    rw [hn, List.range_succ, List.map_append]
    congr 1
    · apply List.map_congr_left
      intro i hi
      rw [List.mem_range] at hi
      rw [hpush]
      simp only
      rw [Function.update_noteq]
      omega
    · rw [hpush]
      simp only [List.map_cons, List.map_nil, List.cons.injEq, and_true]
      have : (s.rtail + rb_count s) % 16 = s.rhead := by omega
      rw [this, Function.update_same]

/-- The result of `ps2_available` is the FIFO availability of the queued bytes. -/
theorem ps2_available_eq (s : State) : ps2_available s = fifo_available (contents s) := by
  unfold ps2_available fifo_available contents
  cases h : rb_count s <;> simp [List.range_succ]

/-- When a byte is available, `ps2_read` returns the oldest queued byte and leaves the rest. -/
theorem contents_ps2_read (s : State) (h : RingOK s) (ha : ps2_available s = true) :
    contents s = (ps2_read s).1 :: contents (ps2_read s).2 := by
  have hc := rb_count_eq s h
  have hc' := rb_count_eq (ps2_read s).2 (RingOK_ps2_read s h)
  obtain ⟨hh, ht⟩ := h
  simp only [RB_SIZE] at hh ht
  have hpos : rb_count s ≠ 0 := by simpa [ps2_available] using ha
  simp only [ps2_read, mask15] at hc' ⊢
  obtain ⟨n, hn⟩ : ∃ n, rb_count s = n + 1 := ⟨rb_count s - 1, by omega⟩
  have hn' : rb_count { s with rtail := (s.rtail + 1) % 16 } = n := by
    rw [hc']
    omega
  unfold contents
  rw [hn, hn', List.range_succ_eq_map]
  simp only [List.map_cons, List.map_map, Nat.add_zero, List.cons.injEq]
  refine ⟨by rw [Nat.mod_eq_of_lt ht], ?_⟩
  apply List.map_congr_left
  intro i _
  simp only [Function.comp, Nat.succ_eq_add_one]
  congr 1
  omega

theorem runRing_refines (ops : List RingOp) :
    ∀ s : State, RingOK s →
      (runRing s ops).map (fun r => (r.1, contents r.2)) = runFifo (contents s) ops := by
  induction ops with
  | nil => intro s _; rfl
  | cons op ops ih =>
    intro s h
    cases op with
    | push b =>
      simp only [runRing, runFifo]
      rw [ih _ (RingOK_rb_push s b h), contents_rb_push s b h]
    | read =>
      simp only [runRing, runFifo, ← ps2_available_eq]
      by_cases ha : ps2_available s = true
      · have hr := contents_ps2_read s h ha
        have := ih _ (RingOK_ps2_read s h)
        simp only [ha, if_true]
        rw [hr]
        simp only [fifo_read, Option.some_bind]
        rw [← this]
        cases runRing (ps2_read s).2 ops <;> rfl
      · simp [ha]

theorem runRing_RingOK (ops : List RingOp) :
    ∀ s : State, RingOK s → ∀ r, runRing s ops = some r → RingOK r.2 := by
  induction ops with
  | nil =>
    intro s h r hr
    simp only [runRing, Option.some.injEq] at hr
    subst hr
    exact h
  | cons op ops ih =>
    intro s h r hr
    cases op with
    | push b => exact ih _ (RingOK_rb_push s b h) r hr
    | read =>
      simp only [runRing] at hr
      split at hr
      · simp only [Option.map_eq_some'] at hr
        obtain ⟨r', hr', rfl⟩ := hr
        exact ih _ (RingOK_ps2_read s h) r' hr'
      · simp at hr

/-- C5. FIFO refinement: from the empty buffer left by `ps2_init`, every sequence of
pushes and guarded reads run on `rb_push`, `ps2_read` and `ps2_available` gives the
same read results, allows a read at the same points and queues the same bytes as the
same sequence run on the FIFO list of capacity 15.  In every state `r.2` so reached,
a push appends its byte exactly when fewer than 15 bytes are queued, `ps2_available()`
is true exactly when the list of queued bytes is not empty, and `ps2_read` then returns
the oldest queued byte and removes it. -/
theorem ring_refines_fifo (s0 : State) (ops : List RingOp) :
    (runRing (ps2_init s0) ops).map (fun r => (r.1, contents r.2)) = runFifo [] ops ∧
    ∀ r, runRing (ps2_init s0) ops = some r →
      (∀ b, contents (rb_push r.2 b) =
        if (contents r.2).length < 15 then contents r.2 ++ [b] else contents r.2) ∧
      (ps2_available r.2 = true ↔ contents r.2 ≠ []) ∧
      (ps2_available r.2 = true →
        contents r.2 = (ps2_read r.2).1 :: contents (ps2_read r.2).2) := by
  have hok : RingOK (ps2_init s0) := by simp [RingOK, ps2_init, rx_reset]
  have hnil : contents (ps2_init s0) = [] := by
    simp [contents, rb_count, ps2_init, rx_reset]
  refine ⟨?_, ?_⟩
  · rw [runRing_refines ops _ hok, hnil]
  · intro r hr
    have hr2 := runRing_RingOK ops _ hok r hr
    refine ⟨fun b => contents_rb_push r.2 b hr2, ?_, contents_ps2_read r.2 hr2⟩
    rw [ps2_available_eq]
    cases contents r.2 <;> simp [fifo_available]


/-- C6. Overflow policy: on a full ring (`(head + 1) mod 16 = tail`, which holds in
particular for indices in `[0, 16)`) `rb_push` changes nothing at all: head, tail and
every slot stay; 15 bytes are queued, they are kept in order and the new byte is
dropped. -/
theorem push_full_noop (s : State) (b : Nat) (hfull : (s.rhead + 1) % 16 = s.rtail) :
    rb_push s b = s ∧ rb_count s = 15 ∧ contents (rb_push s b) = contents s := by
  have h1 : rb_push s b = s := by
    unfold rb_push
    simp only [mask15, ne_eq, hfull, not_true_eq_false, if_false]
  refine ⟨h1, ?_, by rw [h1]⟩
  unfold rb_count
  omega

theorem push_full_noop_witness :
    (fullRing.rhead < 16 ∧ fullRing.rtail < 16) ∧
    rb_push fullRing 0x1C = fullRing ∧ rb_count fullRing = 15 ∧
    contents (rb_push fullRing 0x1C) = contents fullRing :=
  ⟨by decide, push_full_noop fullRing 0x1C (by decide)⟩

/-! ## The translator -/

theorem rb_push_flags (s : State) (b : Nat) :
    (rb_push s b).is_extended = s.is_extended ∧ (rb_push s b).is_break = s.is_break := by
  unfold rb_push
  dsimp only
  split <;> exact ⟨rfl, rfl⟩

theorem contents_cons (s : State) (h : RingOK s) (x : Nat) (xs : List Nat)
    (hq : contents s = x :: xs) :
    ps2_available s = true ∧ (ps2_read s).1 = x ∧ contents (ps2_read s).2 = xs := by
  have ha : ps2_available s = true := by
    rw [ps2_available_eq, hq]
    rfl
  have hr := contents_ps2_read s h ha
  rw [hq] at hr
  simp only [List.cons.injEq] at hr
  exact ⟨ha, hr.1.symm, hr.2.symm⟩

/-- The loop computes `scanList` on the queued bytes, given more fuel than bytes; it
changes nothing but the tail index and the two flags. -/
theorem ps2_get_char_loop_scan (n : Nat) :
    ∀ (s : State) (e k : Nat) (q : List Nat), RingOK s → contents s = q →
      s.is_extended = e → s.is_break = k → q.length < n →
      ∃ s1, ps2_get_char_loop n s = some ((scanList e k q).char, s1) ∧
        s1.is_extended = (scanList e k q).ext ∧ s1.is_break = (scanList e k q).brk ∧
        contents s1 = (scanList e k q).rest ∧ RingOK s1 ∧
        s1 = { s with rtail := s1.rtail, is_extended := s1.is_extended,
                      is_break := s1.is_break } := by
  induction n with
  | zero => intro s e k q _ _ _ _ h; simp at h
  | succ n ih =>
    intro s e k q hok hq he hk hlen
    cases q with
    | nil =>
      have ha : ps2_available s = false := by
        rw [ps2_available_eq, hq]
        rfl
      refine ⟨s, ?_, he, hk, hq, hok, rfl⟩
      simp [ps2_get_char_loop, ha, scanList]
    | cons x xs =>
      obtain ⟨ha, hx, hxs⟩ := contents_cons s hok x xs hq
      have hok1 := RingOK_ps2_read s hok
      have hlen1 : xs.length < n := by simpa using hlen
      have he1 : (ps2_read s).2.is_extended = e := he
      have hk1 : (ps2_read s).2.is_break = k := hk
      have key : ∀ (t : State) (e1 k1 : Nat), RingOK t → contents t = xs →
          t.is_extended = e1 → t.is_break = k1 →
          t = { s with rtail := t.rtail, is_extended := t.is_extended,
                       is_break := t.is_break } →
          ∃ s1, ps2_get_char_loop n t = some ((scanList e1 k1 xs).char, s1) ∧
            s1.is_extended = (scanList e1 k1 xs).ext ∧ s1.is_break = (scanList e1 k1 xs).brk ∧
            contents s1 = (scanList e1 k1 xs).rest ∧ RingOK s1 ∧
            s1 = { s with rtail := s1.rtail, is_extended := s1.is_extended,
                          is_break := s1.is_break } := by
        intro t e1 k1 h1 h2 h3 h4 h5
        obtain ⟨s1, r1, r2, r3, r4, r5, r6⟩ := ih t e1 k1 xs h1 h2 h3 h4 hlen1
        refine ⟨s1, r1, r2, r3, r4, r5, ?_⟩
        rw [r6, h5]
      simp only [ps2_get_char_loop, ha, if_true, hx, scanList]
      by_cases h1 : x = 0xE0
      · simp only [h1, if_true]
        exact key _ 1 k hok1 hxs rfl hk1 rfl
      · by_cases h2 : x = 0xF0
        · simp only [h1, h2, if_true, if_false]
          exact key _ e 1 hok1 hxs he1 rfl rfl
        · by_cases h3 : k = 0
          · have c3 : ¬ ((ps2_read s).2.is_break ≠ 0) := by rw [hk1, h3]; simp
            have c3' : ¬ (k ≠ 0) := by simp [h3]
            rw [if_neg h1, if_neg h2, if_neg c3, if_neg h1, if_neg h2, if_neg c3']
            by_cases h4 : e = 0
            · have c4 : ¬ ((ps2_read s).2.is_extended ≠ 0) := by rw [he1, h4]; simp
              have c4' : ¬ (e ≠ 0) := by simp [h4]
              simp only [if_neg c4, if_neg c4']
              by_cases h5 : uart_print_ps2_scancodes x = 0
              · rw [if_neg (by simp [h5]), if_neg (by simp [h5])]
                exact key _ 0 k hok1 hxs (he1.trans h4) hk1 rfl
              · rw [if_pos h5, if_pos h5]
                exact ⟨_, rfl, he1.trans h4, hk1, hxs, hok1, rfl⟩
            · have c4 : (ps2_read s).2.is_extended ≠ 0 := by rw [he1]; exact h4
              simp only [if_pos c4, if_pos h4]
              by_cases h5 : uart_print_ps2_extended x = 0
              · rw [if_neg (by simp [h5]), if_neg (by simp [h5])]
                exact key _ 0 k hok1 hxs rfl hk1 rfl
              · rw [if_pos h5, if_pos h5]
                exact ⟨_, rfl, rfl, hk1, hxs, hok1, rfl⟩
          · have c3 : (ps2_read s).2.is_break ≠ 0 := by rw [hk1]; exact h3
            rw [if_neg h1, if_neg h2, if_pos c3, if_neg h1, if_neg h2, if_pos h3]
            exact key _ e 0 hok1 hxs he1 rfl rfl

/-- The call `ps2_get_char` returns: its result is `scanList` of the flags and the queued bytes,
and it leaves the unread bytes in the queue. -/
theorem ps2_get_char_scan (s : State) (hok : RingOK s) :
    ∃ s1, ps2_get_char s
        = some ((scanList s.is_extended s.is_break (contents s)).char, s1) ∧
      s1.is_extended = (scanList s.is_extended s.is_break (contents s)).ext ∧
      s1.is_break = (scanList s.is_extended s.is_break (contents s)).brk ∧
      contents s1 = (scanList s.is_extended s.is_break (contents s)).rest ∧ RingOK s1 ∧
      s1 = { s with rtail := s1.rtail, is_extended := s1.is_extended,
                    is_break := s1.is_break } := by
  have hlen : (contents s).length < RB_SIZE := by
    rw [contents_length]
    unfold rb_count
    simp only [RB_SIZE]
    omega
  exact ps2_get_char_loop_scan RB_SIZE s _ _ _ hok rfl rfl rfl hlen

/-- C7. Make-code translation: with both flags clear and exactly one byte `b` queued, to
which the normal table gives a non-zero code, the first call of `ps2_get_char` returns
that code and the next call returns 0. -/
theorem make_code_translation (b : Nat) (s : State)
    (hmap : uart_print_ps2_scancodes b ≠ 0) (hok : RingOK s) (hq : contents s = [b])
    (hext : s.is_extended = 0) (hbrk : s.is_break = 0) :
    ∃ s1, ps2_get_char s = some (uart_print_ps2_scancodes b, s1) ∧
      ∃ s2, ps2_get_char s1 = some (0, s2) := by
  have hE0 : b ≠ 0xE0 := by
    rintro rfl
    exact hmap (by decide)
  have hF0 : b ≠ 0xF0 := by
    rintro rfl
    exact hmap (by decide)
  obtain ⟨s1, r1, r2, r3, r4, r5, _⟩ := ps2_get_char_scan s hok
  rw [hq, hext, hbrk] at r1 r2 r3 r4
  simp only [scanList, hE0, hF0, if_false, ne_eq, not_true_eq_false, hmap, not_false_eq_true,
    if_true] at r1 r2 r3 r4
  refine ⟨s1, r1, ?_⟩
  obtain ⟨s2, q1, _⟩ := ps2_get_char_scan s1 r5
  rw [r4] at q1
  exact ⟨s2, q1⟩

theorem make_code_translation_witness :
    ∃ s1, ps2_get_char (ringOf [0x1C]) = some (97, s1) ∧
      ∃ s2, ps2_get_char s1 = some (0, s2) :=
  make_code_translation 0x1C (ringOf [0x1C]) (by decide) (by decide) (by decide) rfl rfl

/-- C8. Release suppression: with both flags clear and exactly `[0xF0, b]` queued, for
any byte `b`, `ps2_get_char` returns 0, and the following call returns 0 as well. -/
theorem release_suppressed (b : Nat) (s : State) (hok : RingOK s)
    (hq : contents s = [0xF0, b]) (hext : s.is_extended = 0) (hbrk : s.is_break = 0) :
    ∃ s1, ps2_get_char s = some (0, s1) ∧ ∃ s2, ps2_get_char s1 = some (0, s2) := by
  obtain ⟨s1, r1, _, _, r4, r5, _⟩ := ps2_get_char_scan s hok
  rw [hq, hext, hbrk] at r1 r4
  have hscan : (scanList 0 0 [0xF0, b]).char = 0 ∧ (scanList 0 0 [0xF0, b]).rest = [] := by
    by_cases hE0 : b = 0xE0
    · subst hE0
      decide
    · by_cases hF0 : b = 0xF0
      · subst hF0
        decide
      · simp [scanList, hE0, hF0]
  rw [hscan.1] at r1
  rw [hscan.2] at r4
  refine ⟨s1, r1, ?_⟩
  obtain ⟨s2, q1, _⟩ := ps2_get_char_scan s1 r5
  rw [r4] at q1
  exact ⟨s2, q1⟩

theorem release_suppressed_witness :
    ∃ s1, ps2_get_char (ringOf [0xF0, 0x1C]) = some (0, s1) ∧
      ∃ s2, ps2_get_char s1 = some (0, s2) :=
  release_suppressed 0x1C (ringOf [0xF0, 0x1C]) (by decide) (by decide) rfl rfl

/-- C9. Extended translation: with both flags clear and exactly `[0xE0, b]` queued, where
the extended table gives `b` a non-zero code, `ps2_get_char` returns the code of the
extended table and leaves `is_extended` at 0. -/
theorem extended_translation (b : Nat) (s : State)
    (hmap : uart_print_ps2_extended b ≠ 0) (hok : RingOK s) (hq : contents s = [0xE0, b])
    (hext : s.is_extended = 0) (hbrk : s.is_break = 0) :
    ∃ s1, ps2_get_char s = some (uart_print_ps2_extended b, s1) ∧ s1.is_extended = 0 := by
  have hE0 : b ≠ 0xE0 := by
    rintro rfl
    exact hmap (by decide)
  have hF0 : b ≠ 0xF0 := by
    rintro rfl
    exact hmap (by decide)
  obtain ⟨s1, r1, r2, _⟩ := ps2_get_char_scan s hok
  rw [hq, hext, hbrk] at r1 r2
  simp only [scanList, hE0, hF0, if_false, ne_eq, not_true_eq_false, hmap, not_false_eq_true,
    if_true, one_ne_zero] at r1 r2
  exact ⟨s1, r1, r2⟩

theorem extended_translation_witness :
    (∃ s1, ps2_get_char (ringOf [0xE0, 0x75]) = some (159, s1) ∧ s1.is_extended = 0) ∧
    uart_print_ps2_scancodes 0x75 = 56 :=
  ⟨extended_translation 0x75 (ringOf [0xE0, 0x75]) (by decide) (by decide) (by decide) rfl rfl,
    by decide⟩

/-- C10. The extended flag survives across calls: with both flags clear and only `[0xE0]`
queued, `ps2_get_char` returns 0 and leaves `is_extended` set; if a byte `b` is then
pushed and `ps2_get_char` called again, it returns the same code and leaves the same
flags as a single call on a state with clear flags and `[0xE0, b]` queued, and that
code is the one of the extended table. -/
theorem extended_flag_survives (s : State) (hok : RingOK s) (hq : contents s = [0xE0])
    (hext : s.is_extended = 0) (hbrk : s.is_break = 0) :
    ∃ s1, ps2_get_char s = some (0, s1) ∧ s1.is_extended = 1 ∧
      ∀ (b : Nat) (t : State), RingOK t → contents t = [0xE0, b] →
        t.is_extended = 0 → t.is_break = 0 →
        ∃ c s2 t2, ps2_get_char (rb_push s1 b) = some (c, s2) ∧
          ps2_get_char t = some (c, t2) ∧
          s2.is_extended = t2.is_extended ∧ s2.is_break = t2.is_break ∧
          c = uart_print_ps2_extended b := by
  obtain ⟨s1, r1, r2, r3, r4, r5, _⟩ := ps2_get_char_scan s hok
  rw [hq, hext, hbrk] at r1 r2 r3 r4
  simp only [scanList, if_true] at r1 r2 r3 r4
  refine ⟨s1, r1, r2, ?_⟩
  intro b t tok tq text tbrk
  have hpq : contents (rb_push s1 b) = [b] := by
    rw [contents_rb_push s1 b r5, r4]
    rfl
  have hpe : (rb_push s1 b).is_extended = 1 := by
    rw [(rb_push_flags s1 b).1, r2]
  have hpk : (rb_push s1 b).is_break = 0 := by
    rw [(rb_push_flags s1 b).2, r3]
  obtain ⟨s2, a1, a2, a3, _⟩ := ps2_get_char_scan (rb_push s1 b) (RingOK_rb_push s1 b r5)
  obtain ⟨t2, b1, b2, b3, _⟩ := ps2_get_char_scan t tok
  rw [hpq, hpe, hpk] at a1 a2 a3
  rw [tq, text, tbrk] at b1 b2 b3
  have hsame : scanList 0 0 [0xE0, b] = scanList 1 0 [b] := by simp [scanList]
  rw [hsame] at b1 b2 b3
  refine ⟨_, s2, t2, a1, b1, a2.trans b2.symm, a3.trans b3.symm, ?_⟩
  by_cases hE0 : b = 0xE0
  · subst hE0
    decide
  · by_cases hF0 : b = 0xF0
    · subst hF0
      decide
    · simp only [scanList, hE0, hF0, if_false, ne_eq, not_true_eq_false, one_ne_zero,
        not_false_eq_true, if_true]
      split
      · rfl
      · rename_i h
        exact (not_not.mp h).symm

theorem extended_flag_survives_witness :
    ∃ s1, ps2_get_char (ringOf [0xE0]) = some (0, s1) ∧ s1.is_extended = 1 ∧
      ∀ (b : Nat) (t : State), RingOK t → contents t = [0xE0, b] →
        t.is_extended = 0 → t.is_break = 0 →
        ∃ c s2 t2, ps2_get_char (rb_push s1 b) = some (c, s2) ∧
          ps2_get_char t = some (c, t2) ∧
          s2.is_extended = t2.is_extended ∧ s2.is_break = t2.is_break ∧
          c = uart_print_ps2_extended b :=
  extended_flag_survives (ringOf [0xE0]) (by decide) (by decide) rfl rfl

/-! ## The result of `ps2_get_char` -/

theorem scanList_meaning (q : List Nat) : ∀ e k : Nat,
    ((scanList e k q).char = 0 → (scanList e k q).rest = [] ∧ allPassedOver e k q) ∧
    ((scanList e k q).char ≠ 0 → ∃ pre x, q = pre ++ x :: (scanList e k q).rest ∧
      allPassedOver e k pre ∧ x ≠ 0xE0 ∧ x ≠ 0xF0 ∧ (flagsAfter e k pre).2 = 0 ∧
      (scanList e k q).char =
        if (flagsAfter e k pre).1 ≠ 0 then uart_print_ps2_extended x
        else uart_print_ps2_scancodes x) := by
  induction q with
  | nil =>
    intro e k
    simp [scanList, allPassedOver]
  | cons y ys ih =>
    intro e k
    have lift : ∀ e1 k1 : Nat, passedOver e k y → flagsAfterByte e k y = (e1, k1) →
        scanList e k (y :: ys) = scanList e1 k1 ys →
        ((scanList e k (y :: ys)).char = 0 →
          (scanList e k (y :: ys)).rest = [] ∧ allPassedOver e k (y :: ys)) ∧
        ((scanList e k (y :: ys)).char ≠ 0 → ∃ pre x,
          y :: ys = pre ++ x :: (scanList e k (y :: ys)).rest ∧
          allPassedOver e k pre ∧ x ≠ 0xE0 ∧ x ≠ 0xF0 ∧ (flagsAfter e k pre).2 = 0 ∧
          (scanList e k (y :: ys)).char =
            if (flagsAfter e k pre).1 ≠ 0 then uart_print_ps2_extended x
            else uart_print_ps2_scancodes x) := by
      intro e1 k1 hp hf hs
      obtain ⟨i1, i2⟩ := ih e1 k1
      rw [hs]
      refine ⟨fun h0 => ⟨(i1 h0).1, ?_⟩, fun h1 => ?_⟩
      · simp only [allPassedOver, hf]
        exact ⟨hp, (i1 h0).2⟩
      · obtain ⟨pre, x, a1, a2, a3, a4, a5, a6⟩ := i2 h1
        refine ⟨y :: pre, x, ?_, ?_, a3, a4, ?_, ?_⟩
        · rw [List.cons_append, ← a1]
        · simp only [allPassedOver, hf]
          exact ⟨hp, a2⟩
        · simpa only [flagsAfter, hf] using a5
        · simpa only [flagsAfter, hf] using a6
    by_cases h1 : y = 0xE0
    · exact lift 1 k (Or.inl h1) (by simp [flagsAfterByte, h1]) (by simp [scanList, h1])
    · by_cases h2 : y = 0xF0
      · exact lift e 1 (Or.inr (Or.inl h2)) (by simp [flagsAfterByte, h2])
          (by simp [scanList, h2])
      · by_cases h3 : k = 0
        · by_cases h5 :
            (if e ≠ 0 then uart_print_ps2_extended y else uart_print_ps2_scancodes y) = 0
          · exact lift 0 k (Or.inr (Or.inr (Or.inr h5)))
              (by simp [flagsAfterByte, h1, h2, h3])
              (by simp only [scanList, if_neg h1, if_neg h2, h3, ne_eq, not_true_eq_false,
                    if_false, h5])
          · have hs : scanList e k (y :: ys) =
                { char := if e ≠ 0 then uart_print_ps2_extended y
                    else uart_print_ps2_scancodes y,
                  ext := 0, brk := k, rest := ys } := by
              simp only [scanList, if_neg h1, if_neg h2, h3, ne_eq, not_true_eq_false,
                if_false]
              rw [if_pos h5]
            rw [hs]
            refine ⟨fun h0 => absurd h0 h5, fun _ => ⟨[], y, rfl, trivial, h1, h2, h3, ?_⟩⟩
            simp [flagsAfter]
        · exact lift e 0 (Or.inr (Or.inr (Or.inl h3)))
            (by simp [flagsAfterByte, h1, h2, h3])
            (by simp only [scanList, if_neg h1, if_neg h2, ne_eq, h3, not_false_eq_true,
                  if_true])

/-- C11. Meaning of the result of `ps2_get_char`, for any flags and any queued bytes
(indices in range): the call returns; if it returns 0 the queue is empty on return and
every queued byte gave no output; if it returns `c` other than 0, the queued bytes were
`pre ++ x :: rest` where `rest` is what is left in the queue, in order, every byte of
`pre` was a marker byte, a released key code or an unmapped code, `x` is an ordinary
byte met with `is_break` clear, and `c` is its entry in the extended table when
`is_extended` was set at that byte and in the normal table otherwise. -/
theorem get_char_result_meaning (s : State) (hok : RingOK s) :
    ∃ c s1, ps2_get_char s = some (c, s1) ∧
      (c = 0 → contents s1 = [] ∧ ps2_available s1 = false ∧
        allPassedOver s.is_extended s.is_break (contents s)) ∧
      (c ≠ 0 → ∃ pre x, contents s = pre ++ x :: contents s1 ∧
        allPassedOver s.is_extended s.is_break pre ∧ x ≠ 0xE0 ∧ x ≠ 0xF0 ∧
        (flagsAfter s.is_extended s.is_break pre).2 = 0 ∧
        c = if (flagsAfter s.is_extended s.is_break pre).1 ≠ 0 then uart_print_ps2_extended x
            else uart_print_ps2_scancodes x) := by
  obtain ⟨s1, r1, _, _, r4, _, _⟩ := ps2_get_char_scan s hok
  obtain ⟨m0, m1⟩ := scanList_meaning (contents s) s.is_extended s.is_break
  refine ⟨_, s1, r1, fun h0 => ?_, fun h1 => ?_⟩
  · obtain ⟨a1, a2⟩ := m0 h0
    refine ⟨r4.trans a1, ?_, a2⟩
    rw [ps2_available_eq, r4, a1]
    rfl
  · rw [r4]
    exact m1 h1

theorem get_char_result_meaning_witness :
    ∃ c s1, ps2_get_char (ringOf [0xF0, 0x1C, 0xE0, 0x75, 0x1C]) = some (c, s1) ∧
      (c = 0 → contents s1 = [] ∧ ps2_available s1 = false ∧
        allPassedOver (ringOf [0xF0, 0x1C, 0xE0, 0x75, 0x1C]).is_extended
          (ringOf [0xF0, 0x1C, 0xE0, 0x75, 0x1C]).is_break
          (contents (ringOf [0xF0, 0x1C, 0xE0, 0x75, 0x1C]))) ∧
      (c ≠ 0 → ∃ pre x,
        contents (ringOf [0xF0, 0x1C, 0xE0, 0x75, 0x1C]) = pre ++ x :: contents s1 ∧
        allPassedOver (ringOf [0xF0, 0x1C, 0xE0, 0x75, 0x1C]).is_extended
          (ringOf [0xF0, 0x1C, 0xE0, 0x75, 0x1C]).is_break pre ∧ x ≠ 0xE0 ∧ x ≠ 0xF0 ∧
        (flagsAfter (ringOf [0xF0, 0x1C, 0xE0, 0x75, 0x1C]).is_extended
          (ringOf [0xF0, 0x1C, 0xE0, 0x75, 0x1C]).is_break pre).2 = 0 ∧
        c = if (flagsAfter (ringOf [0xF0, 0x1C, 0xE0, 0x75, 0x1C]).is_extended
                (ringOf [0xF0, 0x1C, 0xE0, 0x75, 0x1C]).is_break pre).1 ≠ 0
            then uart_print_ps2_extended x else uart_print_ps2_scancodes x) :=
  get_char_result_meaning (ringOf [0xF0, 0x1C, 0xE0, 0x75, 0x1C]) (by decide)

/-! ## Timing and invariants of the edge handler -/

/-- The handler is the timeout check followed by the switch. -/
theorem INT4_vect_eq (s : State) (TCNT1 : Nat) (dat : Bool) :
    INT4_vect s TCNT1 dat =
      rx_switch
        (if dt_us (now_us TCNT1) s.last_edge_us > FRAME_TIMEOUT_US then
          rx_reset { s with last_edge_us := now_us TCNT1 }
        else { s with last_edge_us := now_us TCNT1 }) dat := rfl

theorem dt_us_of_gap (last g : Nat) (hg : g < 65536) :
    dt_us (now_us ((last + g) % 65536)) last = g := by
  unfold dt_us now_us
  omega

/-- An edge `g < 65536` microseconds after the previous one: the reset before the switch
is done exactly when `g` exceeds the timeout. -/
theorem INT4_vect_of_gap (s : State) (g : Nat) (dat : Bool) (hg : g < 65536) :
    INT4_vect s ((s.last_edge_us + g) % 65536) dat =
      rx_switch
        (if g > FRAME_TIMEOUT_US then
          rx_reset { s with last_edge_us := now_us ((s.last_edge_us + g) % 65536) }
        else { s with last_edge_us := now_us ((s.last_edge_us + g) % 65536) }) dat := by
  rw [INT4_vect_eq, dt_us_of_gap s.last_edge_us g hg]

/-- C13. Wrap-safe inter-edge delta: for a previous time stamp `last` and a true gap
`g` below 65536 us, the counter reads `t = (last + g) mod 2^16` and the handler's
`dt = (t - last) mod 2^16` is `g`, wrapped counter or not; so the handler resets the
receiver before the switch exactly when `g > 2000`. -/
theorem wrap_safe_delta (last g : Nat) (hg : g < 65536) :
    dt_us (now_us ((last + g) % 65536)) last = g ∧
    ∀ (s : State) (dat : Bool), s.last_edge_us = last →
      INT4_vect s ((last + g) % 65536) dat =
        rx_switch
          (if g > FRAME_TIMEOUT_US then
            rx_reset { s with last_edge_us := now_us ((last + g) % 65536) }
          else { s with last_edge_us := now_us ((last + g) % 65536) }) dat := by
  refine ⟨dt_us_of_gap last g hg, ?_⟩
  intro s dat hl
  subst hl
  exact INT4_vect_of_gap s g dat hg

theorem wrap_safe_delta_witness :
    dt_us (now_us ((65000 + 1000) % 65536)) 65000 = 1000 ∧
    ∀ (s : State) (dat : Bool), s.last_edge_us = 65000 →
      INT4_vect s ((65000 + 1000) % 65536) dat =
        rx_switch
          (if 1000 > FRAME_TIMEOUT_US then
            rx_reset { s with last_edge_us := now_us ((65000 + 1000) % 65536) }
          else { s with last_edge_us := now_us ((65000 + 1000) % 65536) }) dat :=
  wrap_safe_delta 65000 1000 (by decide)

theorem rb_count_le (s : State) : rb_count s ≤ 15 := by
  unfold rb_count
  omega

theorem StateInv_rx_reset (s : State) (h : StateInv s) : StateInv (rx_reset s) := by
  obtain ⟨h1, h2, _, _, _, _⟩ := h
  exact ⟨h1, h2, rb_count_le _, by simp [rx_reset], by simp [rx_reset], by simp [rx_reset]⟩

theorem StateInv_ite (c : Prop) [Decidable c] (a b : State) (ha : StateInv a)
    (hb : StateInv b) : StateInv (if c then a else b) := by
  split <;> assumption

theorem StateInv_rb_push (s : State) (b : Nat) (h : StateInv s) : StateInv (rb_push s b) := by
  obtain ⟨h1, h2, _, h4, h5, h6⟩ := h
  obtain ⟨k1, k2⟩ := RingOK_rb_push s b ⟨h1, h2⟩
  refine ⟨k1, k2, rb_count_le _, ?_, ?_, ?_⟩
  · unfold rb_push
    simp only []
    split <;> exact h4
  · unfold rb_push
    simp only []
    split <;> exact h5
  · unfold rb_push
    simp only []
    split <;> exact h6

theorem rx_switch_data (s : State) (d : Bool) (h : s.rx_state = RX_DATA) :
    rx_switch s d =
      { s with rx_byte := if d then (s.rx_byte ||| (1 <<< s.rx_bit_idx)) % 256 else s.rx_byte,
               rx_parity := (s.rx_parity ^^^ (if d then 1 else 0)) % 256,
               rx_bit_idx := (s.rx_bit_idx + 1) % 256,
               rx_state := if (s.rx_bit_idx + 1) % 256 ≥ 8 then RX_PARITY else RX_DATA } := by
  unfold rx_switch
  simp only [h]
  cases d <;> simp <;> split <;> simp_all

theorem StateInv_rx_switch (s : State) (dat : Bool) (h : StateInv s) :
    StateInv (rx_switch s dat) := by
  obtain ⟨h1, h2, h3, h4, h5, h6⟩ := h
  cases hs : s.rx_state with
  | RX_IDLE =>
    unfold rx_switch
    rw [hs]
    cases dat
    · exact ⟨h1, h2, rb_count_le _, by simp, by simp, by simp⟩
    · simpa using ⟨h1, h2, h3, h4, h5, h6⟩
  | RX_DATA =>
    have h7 := h5 hs
    have hp : (s.rx_parity ^^^ (if dat = true then 1 else 0)) % 256 = 0 ∨
        (s.rx_parity ^^^ (if dat = true then 1 else 0)) % 256 = 1 := by
      rcases h6 with h | h <;> rw [h] <;> cases dat <;> decide
    have hi : (s.rx_bit_idx + 1) % 256 = s.rx_bit_idx + 1 := by omega
    rw [rx_switch_data s dat hs]
    refine ⟨h1, h2, rb_count_le _, ?_, ?_, hp⟩
    · simp only [hi]
      omega
    · simp only [hi]
      intro hd
      split at hd
      · exact absurd hd (by decide)
      · omega
  | RX_PARITY =>
    unfold rx_switch
    rw [hs]
    exact StateInv_ite _ _ _ (StateInv_rx_reset _ ⟨h1, h2, h3, h4, h5, h6⟩)
      ⟨h1, h2, rb_count_le _, h4, by simp, h6⟩
  | RX_STOP =>
    unfold rx_switch
    rw [hs]
    exact StateInv_rx_reset _
      (StateInv_ite _ _ _ (StateInv_rb_push s _ ⟨h1, h2, h3, h4, h5, h6⟩)
        ⟨h1, h2, h3, h4, h5, h6⟩)

theorem StateInv_INT4_vect (s : State) (TCNT1 : Nat) (dat : Bool) (h : StateInv s) :
    StateInv (INT4_vect s TCNT1 dat) := by
  rw [INT4_vect_eq]
  apply StateInv_rx_switch
  have h0 : StateInv { s with last_edge_us := now_us TCNT1 } := h
  split
  · exact StateInv_rx_reset _ h0
  · exact h0

theorem Reachable_feed (edges : List Edge) :
    ∀ s : State, Reachable s → Reachable (feed s edges) := by
  induction edges with
  | nil => intro s h; exact h
  | cons e es ih => intro s h; exact ih _ (Reachable.edge s _ e.dat h)

/-- C14. State invariant: in every state reachable from `ps2_init` by edge events and by
`ps2_read` (when `ps2_available()`) and `ps2_get_char` calls, head and tail are below
16, the occupancy is at most 15, the bit index is at most 8, and at most 7 in `RX_DATA`
(where `1 << rx_bit_idx` is then below 256), and the parity accumulator is 0 or 1. -/
theorem reachable_invariant (s : State) (h : Reachable s) :
    s.rhead < 16 ∧ s.rtail < 16 ∧ rb_count s ≤ 15 ∧ s.rx_bit_idx ≤ 8 ∧
    (s.rx_state = RX_DATA → s.rx_bit_idx ≤ 7 ∧ 1 <<< s.rx_bit_idx < 256) ∧
    (s.rx_parity = 0 ∨ s.rx_parity = 1) := by
  have inv : StateInv s := by
    induction h with
    | init s0 =>
      exact ⟨by simp [ps2_init], by simp [ps2_init], rb_count_le _,
        by simp [ps2_init, rx_reset], by simp [ps2_init, rx_reset],
        by simp [ps2_init, rx_reset]⟩
    | edge s T d _ ih => exact StateInv_INT4_vect s T d ih
    | read s _ _ ih =>
      obtain ⟨h1, h2, _, h4, h5, h6⟩ := ih
      obtain ⟨k1, k2⟩ := RingOK_ps2_read s ⟨h1, h2⟩
      exact ⟨k1, k2, rb_count_le _, h4, h5, h6⟩
    | get_char s c s1 _ hc ih =>
      obtain ⟨h1, h2, _, h4, h5, h6⟩ := ih
      obtain ⟨s2, r1, _, _, _, r5, r6⟩ := ps2_get_char_scan s ⟨h1, h2⟩
      rw [hc] at r1
      simp only [Option.some.injEq, Prod.mk.injEq] at r1
      obtain ⟨_, rfl⟩ := r1
      obtain ⟨k1, k2⟩ := r5
      rw [r6]
      exact ⟨h1, by simpa using k2, rb_count_le _, h4, h5, h6⟩
  obtain ⟨h1, h2, h3, h4, h5, h6⟩ := inv
  refine ⟨h1, h2, h3, h4, fun hd => ⟨h5 hd, ?_⟩, h6⟩
  have h7 := h5 hd
  have : 1 <<< s.rx_bit_idx ≤ 1 <<< 7 := by
    rw [Nat.one_shiftLeft, Nat.one_shiftLeft]
    exact Nat.pow_le_pow_right (by decide) h7
  exact Nat.lt_of_le_of_lt this (by decide)

theorem reachable_invariant_witness :
    midFrame.rhead < 16 ∧ midFrame.rtail < 16 ∧ rb_count midFrame ≤ 15 ∧
    midFrame.rx_bit_idx ≤ 8 ∧
    (midFrame.rx_state = RX_DATA → midFrame.rx_bit_idx ≤ 7 ∧ 1 <<< midFrame.rx_bit_idx < 256) ∧
    (midFrame.rx_parity = 0 ∨ midFrame.rx_parity = 1) :=
  reachable_invariant midFrame
    (Reachable_feed (edgesEvery 80 [false, true, false, true]) (ps2_init zeroState)
      (Reachable.init zeroState))

theorem idleDistance_le (s : State) : idleDistance s ≤ 11 := by
  unfold idleDistance
  cases s.rx_state <;> simp only [] <;> try omega
  split <;> omega

theorem idleDistance_pos (s : State) (h : s.rx_state ≠ RX_IDLE) : 0 < idleDistance s := by
  unfold idleDistance
  cases hs : s.rx_state <;> simp only [] <;> try omega
  · exact absurd hs h
  · split <;> omega

/-- Out of `RX_IDLE`, the switch brings the receiver nearer to `RX_IDLE`. -/
theorem rx_switch_nearer (s : State) (d : Bool) (h : s.rx_state ≠ RX_IDLE) :
    idleDistance (rx_switch s d) < idleDistance s := by
  cases hs : s.rx_state with
  | RX_IDLE => exact absurd hs h
  | RX_DATA =>
    rw [rx_switch_data s d hs]
    unfold idleDistance
    rw [hs]
    simp only []
    by_cases h8 : (s.rx_bit_idx + 1) % 256 ≥ 8
    · simp only [h8, if_true]
      decide
    · simp only [h8, if_false]
      have h9 : ((s.rx_bit_idx + 1) % 256 + 1) % 256 = (s.rx_bit_idx + 1) % 256 + 1 := by
        omega
      rw [h9]
      split <;> omega
  | RX_PARITY =>
    have e : rx_switch s d =
        if (if d then 1 else 0) ≠ s.rx_parity then rx_reset s
        else { s with rx_state := RX_STOP } := by
      unfold rx_switch
      rw [hs]
    have hd : idleDistance s = 2 := by
      unfold idleDistance
      rw [hs]
    rw [e, hd]
    by_cases hp : (if d then 1 else 0) ≠ s.rx_parity
    · rw [if_pos hp]
      show (0 : Nat) < 2
      decide
    · rw [if_neg hp]
      show (1 : Nat) < 2
      decide
  | RX_STOP =>
    have e : rx_switch s d =
        rx_reset (if (if d then 1 else 0) = 1 then rb_push s s.rx_byte else s) := by
      unfold rx_switch
      rw [hs]
    have hd : idleDistance s = 1 := by
      unfold idleDistance
      rw [hs]
    rw [e, hd]
    show (0 : Nat) < 1
    decide

/-- From `RX_IDLE`, the switch stays there or opens a frame, 10 edges from `RX_IDLE`. -/
theorem rx_switch_from_idle (s : State) (d : Bool) (h : s.rx_state = RX_IDLE) :
    (rx_switch s d).rx_state = RX_IDLE ∨ idleDistance (rx_switch s d) ≤ 10 := by
  unfold rx_switch
  rw [h]
  cases d
  · right
    simp [idleDistance]
  · left
    simpa using h

/-- After any one edge the receiver is in `RX_IDLE` or at most 10 edges from it. -/
theorem INT4_vect_first (s : State) (T : Nat) (d : Bool) :
    (INT4_vect s T d).rx_state = RX_IDLE ∨ idleDistance (INT4_vect s T d) ≤ 10 := by
  rw [INT4_vect_eq]
  split
  · exact rx_switch_from_idle _ d rfl
  · by_cases hs : s.rx_state = RX_IDLE
    · exact rx_switch_from_idle _ d hs
    · right
      have h1 := rx_switch_nearer { s with last_edge_us := now_us T } d hs
      have h2 := idleDistance_le { s with last_edge_us := now_us T }
      omega

/-- An edge without timeout, out of `RX_IDLE`, brings the receiver nearer to `RX_IDLE`. -/
theorem INT4_vect_nearer (s : State) (g : Nat) (d : Bool) (h : s.rx_state ≠ RX_IDLE)
    (hg : g ≤ FRAME_TIMEOUT_US) :
    idleDistance (INT4_vect s ((s.last_edge_us + g) % 65536) d) < idleDistance s := by
  have hg2 : g < 65536 := by
    simp only [FRAME_TIMEOUT_US] at hg
    omega
  rw [INT4_vect_of_gap s g d hg2, if_neg (Nat.not_lt.mpr hg)]
  exact rx_switch_nearer _ d h

theorem idle_within (k : Nat) :
    ∀ (s : State) (edges : List Edge), idleDistance s ≤ k → s.rx_state ≠ RX_IDLE →
      k ≤ edges.length → (∀ e ∈ edges, e.gap ≤ FRAME_TIMEOUT_US) →
      ∃ n, 1 ≤ n ∧ n ≤ k ∧ (feed s (edges.take n)).rx_state = RX_IDLE := by
  induction k with
  | zero =>
    intro s edges hd hs _ _
    have := idleDistance_pos s hs
    omega
  | succ k ih =>
    intro s edges hd hs hlen hgap
    cases edges with
    | nil => simp at hlen
    | cons e es =>
      have hstep := INT4_vect_nearer s e.gap e.dat hs (hgap e (by simp))
      by_cases hi : (INT4_vect s ((s.last_edge_us + e.gap) % 65536) e.dat).rx_state = RX_IDLE
      · exact ⟨1, le_refl 1, by omega, by simpa [feed] using hi⟩
      · obtain ⟨n, n1, n2, n3⟩ := ih _ es (by omega) hi (by simpa using hlen)
          (fun x hx => hgap x (by simp [hx]))
        exact ⟨n + 1, by omega, by omega, by simpa [feed] using n3⟩

/-- C12. The receiver cannot stay out of `RX_IDLE`: from any state, reachable from
`ps2_init` or not, and for any 11 consecutive edges with any line levels, none of the
last 10 later than 2000 us after its predecessor, the receiver is in `RX_IDLE`
immediately after at least one of the 11 edges. -/
theorem idle_within_eleven (s : State) (edges : List Edge) (hlen : edges.length = 11)
    (hgap : ∀ e ∈ edges.tail, e.gap ≤ FRAME_TIMEOUT_US) :
    ∃ n, 1 ≤ n ∧ n ≤ 11 ∧ (feed s (edges.take n)).rx_state = RX_IDLE := by
  cases edges with
  | nil => simp at hlen
  | cons e es =>
    simp only [List.tail_cons] at hgap
    rcases INT4_vect_first s ((s.last_edge_us + e.gap) % 65536) e.dat with hi | hd
    · exact ⟨1, le_refl 1, by decide, by simpa [feed] using hi⟩
    · by_cases hi : (INT4_vect s ((s.last_edge_us + e.gap) % 65536) e.dat).rx_state = RX_IDLE
      · exact ⟨1, le_refl 1, by decide, by simpa [feed] using hi⟩
      · obtain ⟨n, n1, n2, n3⟩ := idle_within 10 _ es hd hi
          (by simp only [List.length_cons] at hlen; omega) hgap
        exact ⟨n + 1, by omega, by omega, by simpa [feed] using n3⟩

theorem idle_within_eleven_witness :
    ∃ n, 1 ≤ n ∧ n ≤ 11 ∧
      (feed midFrame ((edgesEvery 80 (frameBits 0x1C)).take n)).rx_state = RX_IDLE :=
  idle_within_eleven midFrame (edgesEvery 80 (frameBits 0x1C)) (by decide) (by decide)

/-! ## Overflow while decoding, table ranges, release sequences -/

theorem contents_congr (s t : State) (h1 : t.rb = s.rb) (h2 : t.rhead = s.rhead)
    (h3 : t.rtail = s.rtail) : contents t = contents s := by
  unfold contents rb_count
  rw [h1, h2, h3]

theorem rb_push_full (s : State) (b : Nat) (hfull : (s.rhead + 1) % 16 = s.rtail) :
    rb_push s b = s := by
  unfold rb_push
  simp only [mask15, ne_eq, hfull, not_true_eq_false, if_false]

/-- C16. Overflow during decoding: with 15 bytes queued (indices in range), the valid
frame of a byte `b`, decoded from `RX_IDLE` without timeout after the start edge,
leaves slots, head, tail and so the 15 queued bytes as they were (`b` is dropped), and
the receiver is in `RX_IDLE` after the stop edge. -/
theorem overflow_during_decode (b : Nat) (hb : b < 256) (s : State) (edges : List Edge)
    (hidle : s.rx_state = RX_IDLE) (hok : RingOK s) (hfull : rb_count s = 15)
    (hbits : edges.map Edge.dat = frameBits b)
    (hgap : ∀ e ∈ edges.tail, e.gap ≤ FRAME_TIMEOUT_US) :
    (feed s edges).rb = s.rb ∧ (feed s edges).rhead = s.rhead ∧
    (feed s edges).rtail = s.rtail ∧ contents (feed s edges) = contents s ∧
    (contents s).length = 15 ∧ (feed s edges).rx_state = RX_IDLE := by
  have hc := rb_count_eq s hok
  have hf : (s.rhead + 1) % 16 = s.rtail := by
    obtain ⟨hh, ht⟩ := hok
    simp only [RB_SIZE] at hh ht
    omega
  obtain ⟨h1, h2, h3, h4⟩ := feed_frame b hb (oddParityBit b) true s edges hidle hbits hgap
  rw [rb_push_full s b hf] at h1 h2
  simp only [ite_self, true_or, if_true] at h1 h2 h4
  exact ⟨h1, h2, h3, contents_congr s _ h1 h2 h3, by rw [contents_length, hfull], h4⟩

theorem overflow_during_decode_witness :
    (feed fullRing (edgesEvery 80 (frameBits 0x1C))).rb = fullRing.rb ∧
    (feed fullRing (edgesEvery 80 (frameBits 0x1C))).rhead = fullRing.rhead ∧
    (feed fullRing (edgesEvery 80 (frameBits 0x1C))).rtail = fullRing.rtail ∧
    contents (feed fullRing (edgesEvery 80 (frameBits 0x1C))) = contents fullRing ∧
    (contents fullRing).length = 15 ∧
    (feed fullRing (edgesEvery 80 (frameBits 0x1C))).rx_state = RX_IDLE :=
  overflow_during_decode 0x1C (by decide) fullRing (edgesEvery 80 (frameBits 0x1C))
    rfl (by decide) (by decide) (by decide) (by decide)

set_option maxRecDepth 100000 in
set_option maxHeartbeats 4000000 in
/-- C17. Output code ranges: for every scan code below 256, each table gives 0 exactly
for the codes that have no case in it, and otherwise a value in `0x08..0x7E` or in
`128..255`; the marker bytes `0xE0` and `0xF0` have no case in either table. -/
theorem table_ranges : ∀ b, b < 256 →
    (b ∈ normalCases ↔ uart_print_ps2_scancodes b ≠ 0) ∧
    (uart_print_ps2_scancodes b = 0 ∨
      (0x08 ≤ uart_print_ps2_scancodes b ∧ uart_print_ps2_scancodes b ≤ 0x7E) ∨
      (128 ≤ uart_print_ps2_scancodes b ∧ uart_print_ps2_scancodes b ≤ 255)) ∧
    (b ∈ extendedCases ↔ uart_print_ps2_extended b ≠ 0) ∧
    (uart_print_ps2_extended b = 0 ∨
      (0x08 ≤ uart_print_ps2_extended b ∧ uart_print_ps2_extended b ≤ 0x7E) ∨
      (128 ≤ uart_print_ps2_extended b ∧ uart_print_ps2_extended b ≤ 255)) ∧
    uart_print_ps2_scancodes 0xE0 = 0 ∧ uart_print_ps2_scancodes 0xF0 = 0 ∧
    uart_print_ps2_extended 0xE0 = 0 ∧ uart_print_ps2_extended 0xF0 = 0 := by
  decide

theorem table_ranges_witness :
    (0x1C ∈ normalCases ↔ uart_print_ps2_scancodes 0x1C ≠ 0) ∧
    (uart_print_ps2_scancodes 0x1C = 0 ∨
      (0x08 ≤ uart_print_ps2_scancodes 0x1C ∧ uart_print_ps2_scancodes 0x1C ≤ 0x7E) ∨
      (128 ≤ uart_print_ps2_scancodes 0x1C ∧ uart_print_ps2_scancodes 0x1C ≤ 255)) ∧
    (0x1C ∈ extendedCases ↔ uart_print_ps2_extended 0x1C ≠ 0) ∧
    (uart_print_ps2_extended 0x1C = 0 ∨
      (0x08 ≤ uart_print_ps2_extended 0x1C ∧ uart_print_ps2_extended 0x1C ≤ 0x7E) ∨
      (128 ≤ uart_print_ps2_extended 0x1C ∧ uart_print_ps2_extended 0x1C ≤ 255)) ∧
    uart_print_ps2_scancodes 0xE0 = 0 ∧ uart_print_ps2_scancodes 0xF0 = 0 ∧
    uart_print_ps2_extended 0xE0 = 0 ∧ uart_print_ps2_extended 0xF0 = 0 :=
  table_ranges 0x1C (by decide)

/-! ## Bounded polling -/

/-- One `ps2_read` on a non-empty ring removes exactly one byte. -/
theorem rb_count_ps2_read (s : State) (h : RingOK s) (ha : ps2_available s = true) :
    rb_count (ps2_read s).2 + 1 = rb_count s := by
  have hr := contents_ps2_read s h ha
  have := congrArg List.length hr
  simp only [contents_length, List.length_cons] at this
  omega

/-- Every pass through the loop body removes one byte: with more fuel than queued bytes
the loop returns, and the number of passes is the number of bytes removed. -/
theorem ps2_get_char_loop_iters (n : Nat) :
    ∀ s : State, RingOK s → rb_count s < n →
      ∃ c s1 i, ps2_get_char_loop n s = some (c, s1) ∧ ps2_get_char_iters n s = some i ∧
        i + rb_count s1 = rb_count s := by
  induction n with
  | zero => intro s _ h; simp at h
  | succ n ih =>
    intro s hok hlt
    by_cases ha : ps2_available s = true
    · have hok1 := RingOK_ps2_read s hok
      have hc1 := rb_count_ps2_read s hok ha
      have key : ∀ t : State, RingOK t → rb_count t = rb_count (ps2_read s).2 →
          ∃ c s1 i, ps2_get_char_loop n t = some (c, s1) ∧
            (ps2_get_char_iters n t).map (fun i => i + 1) = some i ∧
            i + rb_count s1 = rb_count s := by
        intro t htok htc
        obtain ⟨c, s1, i, e1, e2, e3⟩ := ih t htok (by omega)
        exact ⟨c, s1, i + 1, e1, by rw [e2]; rfl, by omega⟩
      simp only [ps2_get_char_loop, ps2_get_char_iters, ha, if_true]
      split_ifs
      · exact key _ hok1 rfl
      · exact key _ hok1 rfl
      · exact key _ hok1 rfl
      · exact ⟨_, _, 1, rfl, rfl, by rw [Nat.add_comm]; exact hc1⟩
      · exact key _ hok1 rfl
      · exact ⟨_, _, 1, rfl, rfl, by rw [Nat.add_comm]; exact hc1⟩
      · exact key _ hok1 rfl
    · refine ⟨0, s, 0, ?_, ?_, by omega⟩
      · simp [ps2_get_char_loop, ha]
      · simp [ps2_get_char_iters, ha]

/-- C15. Bounded polling: for any flags and any ring with indices in range,
`ps2_get_char` returns; the loop body runs `i` times, where `i` is the number of bytes
removed from the queue, at most the number queued at entry and so at most 15; the
bytes removed are the oldest ones, head and slots are untouched, and the one
`ps2_read` of a pass through the body removes exactly one byte. -/
theorem bounded_polling (s : State) (hok : RingOK s) :
    ∃ c s1 i, ps2_get_char s = some (c, s1) ∧ ps2_get_char_iters RB_SIZE s = some i ∧
      i + rb_count s1 = rb_count s ∧ i ≤ rb_count s ∧ rb_count s ≤ 15 ∧
      (∃ used, used.length = i ∧ contents s = used ++ contents s1) ∧
      s1.rhead = s.rhead ∧ s1.rb = s.rb ∧
      (ps2_available s = true → rb_count (ps2_read s).2 + 1 = rb_count s) := by
  have hlt : rb_count s < RB_SIZE := by
    have := rb_count_le s
    simp only [RB_SIZE]
    omega
  obtain ⟨c, s1, i, e1, e2, e3⟩ := ps2_get_char_loop_iters RB_SIZE s hok hlt
  obtain ⟨s2, r1, _, _, r4, _, r6⟩ := ps2_get_char_scan s hok
  have e1' : ps2_get_char s = some (c, s1) := e1
  rw [e1'] at r1
  simp only [Option.some.injEq, Prod.mk.injEq] at r1
  obtain ⟨hc, rfl⟩ := r1
  obtain ⟨m0, m1⟩ := scanList_meaning (contents s) s.is_extended s.is_break
  have hused : ∃ used, contents s = used ++ contents s1 := by
    by_cases h0 : (scanList s.is_extended s.is_break (contents s)).char = 0
    · refine ⟨contents s, ?_⟩
      rw [r4, (m0 h0).1, List.append_nil]
    · obtain ⟨pre, x, hq, _⟩ := m1 h0
      refine ⟨pre ++ [x], ?_⟩
      rw [r4, List.append_assoc]
      exact hq
  obtain ⟨used, hu⟩ := hused
  have hul : used.length = i := by
    have := congrArg List.length hu
    simp only [List.length_append, contents_length] at this
    omega
  refine ⟨c, s1, i, e1', e2, e3, by omega, rb_count_le s, ⟨used, hul, hu⟩, ?_, ?_,
    rb_count_ps2_read s hok⟩
  · rw [r6]
  · rw [r6]

theorem bounded_polling_witness :
    ∃ c s1 i, ps2_get_char (ringOf [0xF0, 0x1C, 0xE0, 0x75, 0x1C]) = some (c, s1) ∧
      ps2_get_char_iters RB_SIZE (ringOf [0xF0, 0x1C, 0xE0, 0x75, 0x1C]) = some i ∧
      i + rb_count s1 = rb_count (ringOf [0xF0, 0x1C, 0xE0, 0x75, 0x1C]) ∧
      i ≤ rb_count (ringOf [0xF0, 0x1C, 0xE0, 0x75, 0x1C]) ∧
      rb_count (ringOf [0xF0, 0x1C, 0xE0, 0x75, 0x1C]) ≤ 15 ∧
      (∃ used, used.length = i ∧
        contents (ringOf [0xF0, 0x1C, 0xE0, 0x75, 0x1C]) = used ++ contents s1) ∧
      s1.rhead = (ringOf [0xF0, 0x1C, 0xE0, 0x75, 0x1C]).rhead ∧
      s1.rb = (ringOf [0xF0, 0x1C, 0xE0, 0x75, 0x1C]).rb ∧
      (ps2_available (ringOf [0xF0, 0x1C, 0xE0, 0x75, 0x1C]) = true →
        rb_count (ps2_read (ringOf [0xF0, 0x1C, 0xE0, 0x75, 0x1C])).2 + 1
          = rb_count (ringOf [0xF0, 0x1C, 0xE0, 0x75, 0x1C])) :=
  bounded_polling (ringOf [0xF0, 0x1C, 0xE0, 0x75, 0x1C]) (by decide)

/-! ## Release sequences and the PWM frequency setup -/

/-- C18 (the code at a failing input). After the release sequence `0xE0 0xF0 0x75` the
call has returned 0 with `is_break` clear but `is_extended` still set, so that in
`[0xE0, 0xF0, 0x75, 0x1C]` the make code `0x1C` is looked up in the extended table and
the call returns 0, while `[0x1C]` alone gives 97, the letter a. -/
theorem release_leaves_extended_set :
    (ps2_get_char (ringOf [0xE0, 0xF0, 0x75])).map
        (fun r => (r.1, r.2.is_extended, r.2.is_break)) = some (0, 1, 0) ∧
    (ps2_get_char (ringOf [0xE0, 0xF0, 0x75, 0x1C])).map Prod.fst = some 0 ∧
    (ps2_get_char (ringOf [0x1C])).map Prod.fst = some 97 := by
  decide

theorem compute_loop_div0 (f t c d k : Nat) (rest : List opt) (h : divisor d f = 0) :
    compute_loop f t c ({ div := d, cs := k } :: rest) = none := by
  simp only [compute_loop, h, if_true]

theorem compute_loop_skip (f t c d k : Nat) (rest : List opt) (h0 : divisor d f ≠ 0)
    (h : F_CPU / divisor d f = 0 ∨
      ¬ (F_CPU / divisor d f - 1 ≥ 1 ∧ F_CPU / divisor d f - 1 ≤ 65535)) :
    compute_loop f t c ({ div := d, cs := k } :: rest) = compute_loop f t c rest := by
  simp only [compute_loop, h0, if_false]
  rcases h with h | h
  · rw [if_pos h]
  · by_cases hz : F_CPU / divisor d f = 0
    · rw [if_pos hz]
    · rw [if_neg hz, if_neg h]

theorem compute_loop_take (f t c d k : Nat) (rest : List opt) (h0 : divisor d f ≠ 0)
    (hz : F_CPU / divisor d f ≠ 0)
    (h : F_CPU / divisor d f - 1 ≥ 1 ∧ F_CPU / divisor d f - 1 ≤ 65535) :
    compute_loop f t c ({ div := d, cs := k } :: rest) =
      some { ret := 0, top_out := (F_CPU / divisor d f - 1) % 65536, cs_bits_out := k } := by
  simp only [compute_loop, h0, if_false]
  rw [if_neg hz, if_pos h]

/-- C20 (the code at a failing input). For `freq_hz = 4194304 = 2^22` and the
prescaler 1024 the 32-bit product is 0; the four smaller prescalers are passed over
and the division by this zero is executed. -/
theorem divisor_zero_at_2_pow_22 (CS10 CS11 CS12 top_out cs_bits_out : Nat) :
    (4194304 : Nat) ≠ 0 ∧ divisor 1024 4194304 = 0 ∧
    compute_top_and_prescaler CS10 CS11 CS12 4194304 top_out cs_bits_out = none := by
  refine ⟨by decide, by decide, ?_⟩
  unfold compute_top_and_prescaler opts
  rw [if_neg (by decide),
    compute_loop_skip _ _ _ 1 _ _ (by decide) (by decide),
    compute_loop_skip _ _ _ 8 _ _ (by decide) (by decide),
    compute_loop_skip _ _ _ 64 _ _ (by decide) (by decide),
    compute_loop_skip _ _ _ 256 _ _ (by decide) (by decide),
    compute_loop_div0 _ _ _ 1024 _ _ (by decide)]

theorem feasibleResult_none (CS10 CS11 CS12 f t c : Nat) (hf : f ≠ 0)
    (h1 : ¬ feasible 1 f) (h2 : ¬ feasible 8 f) (h3 : ¬ feasible 64 f)
    (h4 : ¬ feasible 256 f) (h5 : ¬ feasible 1024 f) :
    feasibleResult CS10 CS11 CS12 f t c = { ret := -1, top_out := t, cs_bits_out := c } := by
  unfold feasibleResult opts
  rw [if_neg hf]
  simp only [List.find?, decide_eq_false h1, decide_eq_false h2, decide_eq_false h3,
    decide_eq_false h4, decide_eq_false h5]

theorem not_feasible_4194305 : ∀ d ∈ [1, 8, 64, 256, 1024], ¬ feasible d 4194305 := by
  decide

/-- C19 (the code at a failing input). For `freq_hz = 4194305` no prescaler is feasible
in exact arithmetic, so the claim gives -1 with both outputs untouched; yet the 32-bit
product `1024 * 4194305` wraps to 1024 and the function returns 0 with `top = 7811`
and the clock-select bits of prescaler 1024. -/
theorem wrapped_product_accepted (CS10 CS11 CS12 top_out cs_bits_out : Nat) :
    (∀ d ∈ [1, 8, 64, 256, 1024], ¬ feasible d 4194305) ∧
    feasibleResult CS10 CS11 CS12 4194305 top_out cs_bits_out =
      { ret := -1, top_out := top_out, cs_bits_out := cs_bits_out } ∧
    divisor 1024 4194305 = 1024 ∧
    compute_top_and_prescaler CS10 CS11 CS12 4194305 top_out cs_bits_out =
      some { ret := 0, top_out := 7811,
             cs_bits_out := ((1 <<< CS12) ||| (1 <<< CS10)) % 256 } := by
  have hn := not_feasible_4194305
  refine ⟨hn, ?_, by decide, ?_⟩
  · exact feasibleResult_none CS10 CS11 CS12 4194305 top_out cs_bits_out (by decide)
      (hn 1 (by decide)) (hn 8 (by decide)) (hn 64 (by decide)) (hn 256 (by decide))
      (hn 1024 (by decide))
  · unfold compute_top_and_prescaler opts
    rw [if_neg (by decide),
      compute_loop_skip _ _ _ 1 _ _ (by decide) (by decide),
      compute_loop_skip _ _ _ 8 _ _ (by decide) (by decide),
      compute_loop_skip _ _ _ 64 _ _ (by decide) (by decide),
      compute_loop_skip _ _ _ 256 _ _ (by decide) (by decide),
      compute_loop_take _ _ _ 1024 _ _ (by decide) (by decide) (by decide),
      (by decide : (F_CPU / divisor 1024 4194305 - 1) % 65536 = 7811)]

theorem feasible_iff (d f : Nat) :
    feasible d f ↔ 2 ≤ F_CPU / (d * f) ∧ F_CPU / (d * f) ≤ 65536 := by
  unfold feasible
  have h : (8000000 : Int) / ((d : Int) * (f : Int)) = ((F_CPU / (d * f) : Nat) : Int) := by
    push_cast
    rfl
  rw [h]
  omega

theorem compute_loop_entry (f t c d k : Nat) (rest : List opt) (hf : f ≠ 0) (hd : d ≠ 0)
    (hlt : d * f < 4294967296) :
    compute_loop f t c ({ div := d, cs := k } :: rest) =
      if feasible d f then
        some { ret := 0,
               top_out := Int.toNat ((8000000 : Int) / ((d : Int) * (f : Int)) - 1),
               cs_bits_out := k }
      else compute_loop f t c rest := by
  have hdiv : divisor d f = d * f := by
    unfold divisor
    exact Nat.mod_eq_of_lt hlt
  have hne : divisor d f ≠ 0 := by
    rw [hdiv]
    exact Nat.mul_ne_zero hd hf
  have hcast : (8000000 : Int) / ((d : Int) * (f : Int)) = ((F_CPU / (d * f) : Nat) : Int) := by
    push_cast
    rfl
  by_cases hfe : feasible d f
  · rw [if_pos hfe]
    have h2 := (feasible_iff d f).mp hfe
    rw [compute_loop_take f t c d k rest hne (by rw [hdiv]; omega) (by rw [hdiv]; omega),
      hdiv, hcast]
    congr 2
    omega
  · rw [if_neg hfe]
    apply compute_loop_skip f t c d k rest hne
    rw [hdiv]
    have h2 := mt (feasible_iff d f).mpr hfe
    omega

/-- Below 2^22 Hz no product overflows, and `compute_top_and_prescaler` returns exactly
the feasibility result in exact arithmetic. -/
theorem compute_matches_feasible (CS10 CS11 CS12 f t c : Nat) (hlt : f < 4194304) :
    compute_top_and_prescaler CS10 CS11 CS12 f t c =
      some (feasibleResult CS10 CS11 CS12 f t c) := by
  unfold compute_top_and_prescaler feasibleResult opts
  by_cases hf : f = 0
  · rw [if_pos hf, if_pos hf]
  · rw [if_neg hf, if_neg hf,
      compute_loop_entry f t c 1 _ _ hf (by decide) (by omega),
      compute_loop_entry f t c 8 _ _ hf (by decide) (by omega),
      compute_loop_entry f t c 64 _ _ hf (by decide) (by omega),
      compute_loop_entry f t c 256 _ _ hf (by decide) (by omega),
      compute_loop_entry f t c 1024 _ _ hf (by decide) (by omega)]
    simp only [List.find?, compute_loop]
    by_cases h1 : feasible 1 f
    · simp only [h1, decide_True, if_true]
    · by_cases h2 : feasible 8 f
      · simp only [h1, h2, decide_True, decide_False, if_true, if_false]
      · by_cases h3 : feasible 64 f
        · simp only [h1, h2, h3, decide_True, decide_False, if_true, if_false]
        · by_cases h4 : feasible 256 f
          · simp only [h1, h2, h3, h4, decide_True, decide_False, if_true, if_false]
          · by_cases h5 : feasible 1024 f
            · simp only [h1, h2, h3, h4, h5, decide_True, decide_False, if_true, if_false]
            · simp only [h1, h2, h3, h4, h5, decide_False, if_false]

/-- For a non-zero frequency below 2^22 Hz no divisor of the loop is zero. -/
theorem divisor_ne_zero_below (f : Nat) (hf : f ≠ 0) (hlt : f < 4194304) :
    ∀ d ∈ [1, 8, 64, 256, 1024], divisor d f ≠ 0 := by
  intro d hd
  simp only [List.mem_cons, List.mem_singleton, List.not_mem_nil, or_false] at hd
  unfold divisor
  rcases hd with h | h | h | h | h <;> subst h <;> omega

/-- What the code does with an extended release sequence: for an ordinary byte `x`,
`[0xE0, 0xF0, x]` met with clear flags gives no character, clears `is_break` and
leaves `is_extended` set. -/
theorem extended_release_flags (x : Nat) (s : State) (hE0 : x ≠ 0xE0) (hF0 : x ≠ 0xF0)
    (hok : RingOK s) (hq : contents s = [0xE0, 0xF0, x])
    (hext : s.is_extended = 0) (hbrk : s.is_break = 0) :
    ∃ s1, ps2_get_char s = some (0, s1) ∧ s1.is_extended = 1 ∧ s1.is_break = 0 ∧
      contents s1 = [] := by
  obtain ⟨s1, r1, r2, r3, r4, _⟩ := ps2_get_char_scan s hok
  rw [hq, hext, hbrk] at r1 r2 r3 r4
  simp only [scanList, hE0, hF0, if_true, if_false, ne_eq, one_ne_zero, not_false_eq_true]
    at r1 r2 r3 r4
  exact ⟨s1, r1, r2, r3, r4⟩

end PS2
